import Mathlib

/-!
Shallow embedding of the `heady` stacked-commit tool (src/heady/tree.py,
main.py, config.py, labels.py, repo.py) and verification of the frozen
claims about it.

The git engine itself (commit storage, rev-list, reflog, cherry-pick) is an
external collaborator of the program; it is modelled here as a pure state
(`GitState`) holding the commit DAG, the HEAD reflog, local branch heads,
remote refs and the persisted hide-list, together with reference
implementations of the narrow interface the program consumes
(`resolveRef`, `reachS` for rev-list style ancestry range queries,
merge-base existence, reflog iteration).  Commit lists are kept in
topological order (every parent strictly later in the list); the
`topoOkB` well-formedness predicate captures the acyclicity of the git
object DAG.
-/

set_option maxRecDepth 10000

namespace Heady

/-- Insert into a list treated as an insertion-ordered set (Python `set.add`). -/
def insertSet {α : Type} [DecidableEq α] (l : List α) (x : α) : List α :=
  if x ∈ l then l else l ++ [x]

/-- Deduplicate a list keeping first occurrences (Python `set(...)` contents). -/
def dedupList {α : Type} [DecidableEq α] (l : List α) : List α :=
  l.foldl insertSet []

/-- Lookup in an insertion-ordered association list (Python `dict.get`). -/
def alistGet {α : Type} (l : List (String × α)) (k : String) : Option α :=
  (l.find? (fun p => p.1 = k)).map (fun p => p.2)

/-- Lookup with default (Python `dict.get(k, d)`). -/
def alistGetD {α : Type} (l : List (String × α)) (k : String) (d : α) : α :=
  (alistGet l k).getD d

/-- Assignment `d[k] = v` on an insertion-ordered association list: overwrite in
place if the key is present, append otherwise (Python dict semantics). -/
def alistSet {α : Type} : List (String × α) → String → α → List (String × α)
  | [], k, v => [(k, v)]
  | (k', v') :: rest, k, v =>
    if k' = k then (k', v) :: rest else (k', v') :: alistSet rest k v

/-- Python `d.setdefault(k, []).append(x)` on an association list of lists. -/
def alistAppendAt : List (String × List String) → String → String → List (String × List String)
  | [], k, x => [(k, [x])]
  | (k', xs) :: rest, k, x =>
    if k' = k then (k', xs ++ [x]) :: rest else (k', xs) :: alistAppendAt rest k x

/-- Python `d.setdefault(k, set()).add(x)` on an association list of
insertion-ordered sets. -/
def alistAddToSet : List (String × List String) → String → String → List (String × List String)
  | [], k, x => [(k, [x])]
  | (k', xs) :: rest, k, x =>
    if k' = k then (k', insertSet xs x) :: rest else (k', xs) :: alistAddToSet rest k x

/-- Set equality of two lists viewed as sets of strings. -/
def listSetEqB (a b : List String) : Bool :=
  a.all (fun x => decide (x ∈ b)) && b.all (fun x => decide (x ∈ a))

/-- Monadic map over `Except`, used to model loops whose body may raise. -/
def mapME {α β : Type} (f : α → Except String β) : List α → Except String (List β)
  | [] => .ok []
  | x :: xs => do
    let y ← f x
    let ys ← mapME f xs
    .ok (y :: ys)

/-- Monadic fold over `Except`, used to model loops whose body may raise. -/
def foldlME {σ α : Type} (f : σ → α → Except String σ) : σ → List α → Except String σ
  | s, [] => .ok s
  | s, x :: xs => do
    let s' ← f s x
    foldlME f s' xs

/-- Commit object as consumed by the program: hash, parent hashes (first
parent first), free-text message, commit timestamp (seconds). -/
structure Commit where
  hexsha : String
  parents : List String
  message : String
  committedDate : Int
deriving DecidableEq, Repr

/-- One HEAD reflog entry: `{old_sha, new_sha, message, timestamp}`. -/
structure RefLogEntry where
  oldhexsha : String
  newhexsha : String
  message : String
  time : Int
deriving DecidableEq, Repr

/-- Local branch head: ref path and the commit it points at. -/
structure Branch where
  path : String
  hexsha : String
deriving DecidableEq, Repr

/-- Snapshot of the repository state consumed (and, for the mutating
operations, produced) by the program.  `commits` is topologically ordered:
each commit's parents occur strictly later in the list.  `reflog` is the
HEAD reflog, oldest entry first (the code iterates it reversed).
`hideList` is the persisted hide-list file, one sha per line. -/
structure GitState where
  commits : List Commit
  reflog : List RefLogEntry
  heads : List Branch
  remoteRefs : List (String × String)
  remotes : List String
  headSha : String
  hideList : List String
  isDirty : Bool
deriving DecidableEq, Repr

/-- `HeadyRepo` from src/heady/repo.py: the configured trunk refs plus the
remote name used for upstreaming (`r.remote` as consumed by tree.py). -/
structure HeadyRepo where
  trunk_refs : List String
  remote : String
deriving DecidableEq, Repr

/-- `Upstream` dataclass from src/heady/tree.py. -/
structure Upstream where
  name : String
  remote_sha : Option String
  remote_commit_datetime : Option Int
deriving DecidableEq, Repr

/-- `CommitNode` from src/heady/tree.py, minus the mutable `children` list:
children are kept per-sha in `HeadyTree.children` (Python appends child
nodes to the parent object; keys of the node maps are the node shas, so the
two representations coincide). -/
structure CommitNode where
  commit : Commit
  is_hidden : Bool
  upstreams : List Upstream
  refs : List String
  merged_upstream_shas : List String
  in_trunk : Bool
deriving DecidableEq, Repr

/-- `HeadyTree` from src/heady/tree.py.  `children` records, for each node
sha, the list of child node shas in append order (the `children` lists of
the Python `CommitNode` objects). -/
structure HeadyTree where
  commit_nodes : List (String × CommitNode)
  trunk_nodes : List CommitNode
  children : List (String × List String)
  amend_source_map : List (String × String)
  visible_upstreams : List (String × List String)
deriving DecidableEq, Repr

/-- Lookup of a commit object by exact hash. -/
def findCommit (s : GitState) (sha : String) : Option Commit :=
  s.commits.find? (fun c => c.hexsha = sha)

/-- Reference resolution (`repo.commit(ref)`): HEAD, then remote refs, then
local branch paths, then a raw commit hash. -/
def resolveRef (s : GitState) (ref : String) : Option String :=
  if ref = "HEAD" then some s.headSha
  else
    match alistGet s.remoteRefs ref with
    | some sha => some sha
    | none =>
      match s.heads.find? (fun b => b.path = ref) with
      | some b => some b.hexsha
      | none => if s.commits.any (fun c => c.hexsha = ref) then some ref else none

/-- Resolution straight to the commit object. -/
def resolveCommit (s : GitState) (ref : String) : Option Commit :=
  (resolveRef s ref).bind (findCommit s)

/-- Well-formedness of the commit list: every parent occurs strictly later in
the list and hashes are unique.  This encodes the acyclicity of the git DAG. -/
def topoOkB : List Commit → Bool
  | [] => true
  | c :: rest =>
    c.parents.all (fun p => rest.any (fun d => d.hexsha = p))
      && rest.all (fun d => decide (d.hexsha ≠ c.hexsha))
      && topoOkB rest

/-- Well-formed repository snapshot. -/
def WellFormed (s : GitState) : Bool := topoOkB s.commits

/-- Core of the ancestry computation: one pass over the topologically ordered
commit list; a commit already known reachable contributes its parents. -/
def reachAux : List Commit → List String → List String
  | [], acc => acc
  | c :: rest, acc =>
    reachAux rest (if c.hexsha ∈ acc then c.parents.foldl insertSet acc else acc)

/-- Reference model of `git rev-list roots` (set of commits reachable from the
roots, the roots included), as a deduplicated list. -/
def reachS (s : GitState) (roots : List String) : List String :=
  reachAux s.commits roots

/-- Reference model of `git merge-base a b` succeeding (the two commits share
at least one common ancestor). -/
def hasCommonAncestor (s : GitState) (a b : String) : Bool :=
  (reachS s [a]).any (fun x => decide (x ∈ reachS s [b]))

/-- Reference model of `git rev-list tips ^trunk...`: reachable from a tip
but from no excluded root. -/
def revListSet (s : GitState) (tips excl : List String) : List String :=
  (reachS s tips).filter (fun sha => decide (sha ∉ reachS s excl))

/-- `is_ancestor` from src/heady/main.py on resolved hashes:
`iter_commits(desc..anc)` is empty iff everything reachable from `anc` is
reachable from `desc`. -/
def isAncestorSha (s : GitState) (anc desc : String) : Bool :=
  (reachS s [anc]).all (fun x => decide (x ∈ reachS s [desc]))

/-- `is_ancestor` from src/heady/main.py: resolves both refs (raising on a
bad revision) and checks the range query. -/
def isAncestorE (s : GitState) (ancRef descRef : String) : Except String Bool := do
  let a ← (resolveRef s ancRef).elim (Except.error "bad revision") Except.ok
  let d ← (resolveRef s descRef).elim (Except.error "bad revision") Except.ok
  .ok (isAncestorSha s a d)

/-- `is_in_trunk` from src/heady/main.py: short-circuiting loop over the
configured trunk refs. -/
def isInTrunkAux (s : GitState) (ref : String) : List String → Except String Bool
  | [] => .ok false
  | t :: ts => do
    let b ← isAncestorE s ref t
    if b then .ok true else isInTrunkAux s ref ts

/-- `is_in_trunk r ref` over all configured trunk refs. -/
def isInTrunkE (r : HeadyRepo) (s : GitState) (ref : String) : Except String Bool :=
  isInTrunkAux s ref r.trunk_refs

/-- Python whitespace characters stripped by `str.strip()`. -/
def pyIsSpace (c : Char) : Bool :=
  decide (c = ' ') || decide (c = '\t') || decide (c = '\n') || decide (c = '\r') ||
    decide (c = '\x0b') || decide (c = '\x0c')

/-- Python `s.strip()`: drop leading and trailing whitespace.  Implemented
structurally over the character list so it evaluates in the kernel. -/
def trimPy (s : String) : String :=
  String.mk (((s.data.dropWhile pyIsSpace).reverse.dropWhile pyIsSpace).reverse)

/-- Helper of `splitPy`: accumulate the current field in reverse. -/
def splitPyAux (c : Char) : List Char → List Char → List String
  | [], acc => [String.mk acc.reverse]
  | x :: xs, acc =>
    if x = c then String.mk acc.reverse :: splitPyAux c xs []
    else splitPyAux c xs (x :: acc)

/-- Python `s.split(sep)` for a one-character separator.  Implemented
structurally over the character list so it evaluates in the kernel. -/
def splitPy (s : String) (c : Char) : List String := splitPyAux c s.data []

/-- Python `s.startswith(pre)`.  Implemented as a character-list check so it
evaluates in the kernel. -/
def startsWithPy (s pre : String) : Bool := pre.data.isPrefixOf s.data

/-- Python `line.split(":", 1)[1]`: everything after the first colon. -/
def afterFirstColon (line : String) : String :=
  match splitPy line ':' with
  | [] => ""
  | [_] => ""
  | _ :: rest => String.intercalate ":" rest

/-- `get_upstream_names` from src/heady/tree.py: the set of trimmed
remainders of message lines starting with the upstream trailer key. -/
def get_upstream_names (message : String) : List String :=
  (splitPy message '\n').foldl
    (fun acc line =>
      if startsWithPy line "upstream:" then insertSet acc (trimPy (afterFirstColon line))
      else acc)
    []

/-- `get_labels` from src/heady/labels.py: trimmed remainders of message
lines starting with the label trailer key, in order. -/
def get_labels (message : String) : List String :=
  (splitPy message '\n').foldl
    (fun acc line =>
      if startsWithPy line "heady_label:" then acc ++ [trimPy (afterFirstColon line)]
      else acc)
    []

/-- Reflog recency window used by `build_tree`: 14 days in seconds. -/
def maxAgeSeconds : Int := 14 * 24 * 60 * 60

/-- Accumulator of the reflog walk at the top of `build_tree`. -/
structure ScanState where
  amendedShas : List String
  amendSourceMap : List (String × String)
  movedShas : List String
  moveSourceMap : List (String × String)
  tipShas : List String
deriving DecidableEq, Repr

/-- Initial (empty) reflog-walk accumulator. -/
def initScan : ScanState := ⟨[], [], [], [], []⟩

/-- Amend recording of the reflog walk (tree.py lines 157-159). -/
def scanStepAmend (item : RefLogEntry) (st : ScanState) : ScanState :=
  if startsWithPy item.message "commit (amend):" then
    { st with
      amendedShas := insertSet st.amendedShas item.oldhexsha
      amendSourceMap := alistSet st.amendSourceMap item.newhexsha item.oldhexsha }
  else st

/-- Move recording of the reflog walk (tree.py lines 161-163). -/
def scanStepMove (item : RefLogEntry) (st : ScanState) : ScanState :=
  if startsWithPy item.message "heady move:" then
    { st with
      movedShas := insertSet st.movedShas item.oldhexsha
      moveSourceMap := alistSet st.moveSourceMap item.newhexsha item.oldhexsha }
  else st

/-- Tip recording of the reflog walk (tree.py lines 170-176). -/
def scanStepTip (hideList : List String) (item : RefLogEntry) (st : ScanState) : ScanState :=
  if item.newhexsha ∉ hideList ∧ item.newhexsha ∉ st.amendedShas ∧
      item.newhexsha ∉ st.movedShas then
    { st with tipShas := insertSet st.tipShas item.newhexsha }
  else st

/-- Reflog walk of `build_tree` (tree.py lines 153-176): entries are
processed newest first; amend and move messages record supersession, then
the walk stops at the first entry older than the recency window; a new sha
becomes a tip unless hidden, amended-away or moved-away. -/
def scanReflog (hideList : List String) (curTime : Int) :
    List RefLogEntry → ScanState → ScanState
  | [], st => st
  | item :: rest, st =>
    let st := scanStepMove item (scanStepAmend item st)
    if curTime - item.time > maxAgeSeconds then st
    else scanReflog hideList curTime rest (scanStepTip hideList item st)

/-- Reflog-walk accumulator of `build_tree` on a repository state. -/
def scanOf (curTime : Int) (s : GitState) : ScanState :=
  scanReflog s.hideList curTime s.reflog.reverse initScan

/-- Tip set after also adding every local branch head (tree.py lines
179-183); branch heads are added unconditionally. -/
def allTips (curTime : Int) (s : GitState) : List String :=
  s.heads.foldl (fun tips b => insertSet tips b.hexsha) (scanOf curTime s).tipShas

/-- Resolution of the configured trunk refs, in order (`repo.commit(trunk)`
raises on an unresolvable trunk ref). -/
def trunkShasOf (r : HeadyRepo) (s : GitState) : Except String (List String) :=
  mapME (fun tr => (resolveRef s tr).elim (Except.error "trunk ref not found") Except.ok)
    r.trunk_refs

/-- Named refs per commit sha: local branch paths plus trunk ref names
(tree.py lines 179-187). -/
def specialBranchesOf (r : HeadyRepo) (s : GitState) (trunkShas : List String) :
    List (String × List String) :=
  (List.zip trunkShas r.trunk_refs).foldl
    (fun m p => alistAddToSet m p.1 p.2)
    (s.heads.foldl (fun m b => alistAddToSet m b.hexsha b.path) [])

/-- Tip set surviving the merge-base filter (tree.py lines 189-204): a tip
sharing no ancestor with some trunk ref is excluded. -/
def keptTipsOf (curTime : Int) (s : GitState) (trunkShas : List String) : List String :=
  (allTips curTime s).filter
    (fun tip => trunkShas.all (fun ts => hasCommonAncestor s tip ts))

/-- The tip set used for the ancestry range query, with trunk resolution
errors propagated. -/
def keptTipsE (r : HeadyRepo) (curTime : Int) (s : GitState) : Except String (List String) :=
  (trunkShasOf r s).map (keptTipsOf curTime s)

/-- Hidden flag of `make_node` (tree.py lines 217-221). -/
def hiddenFlagB (hideList amendedShas movedShas : List String) (sha : String) : Bool :=
  decide (sha ∈ hideList) || decide (sha ∈ movedShas) || decide (sha ∈ amendedShas)

/-- `make_node` from src/heady/tree.py (lines 216-249): builds the node for
one commit and threads the `visible_upstream_shas` side table. -/
def make_node (r : HeadyRepo) (s : GitState)
    (hideList amendedShas movedShas : List String)
    (specialBranches : List (String × List String))
    (visUp : List (String × List String)) (commit : Commit) (inTrunk : Bool) :
    List (String × List String) × CommitNode :=
  let isHidden := hiddenFlagB hideList amendedShas movedShas commit.hexsha
  let names := get_upstream_names commit.message
  let step := fun (acc : List (String × List String) × List Upstream) (name : String) =>
    let vu := if isHidden then acc.1 else alistAppendAt acc.1 name commit.hexsha
    match resolveCommit s (r.remote ++ "/" ++ name) with
    | none => (vu, insertSet acc.2 ⟨name, none, none⟩)
    | some uc => (vu, insertSet acc.2 ⟨name, some uc.hexsha, some uc.committedDate⟩)
  let folded := names.foldl step (visUp, [])
  (folded.1,
   { commit := commit
     is_hidden := isHidden
     upstreams := folded.2
     refs := alistGetD specialBranches commit.hexsha []
     merged_upstream_shas := []
     in_trunk := inTrunk })

/-- Stable insertion into a commit-time-descending list (Python
`sorted(..., reverse=True)`: ties keep their original order). -/
def insertDesc (x : CommitNode) : List CommitNode → List CommitNode
  | [] => [x]
  | y :: rest =>
    if x.commit.committedDate ≤ y.commit.committedDate then y :: insertDesc x rest
    else x :: y :: rest

/-- Trunk node ordering of `build_tree`: commit time descending, stable. -/
def sortDesc (l : List CommitNode) : List CommitNode :=
  l.foldl (fun acc x => insertDesc x acc) []

/-- Commits of `iter_commits (tp..tipSha)`: reachable from the tip but not
from the boundary commit. -/
def rangeShas (s : GitState) (tp tipSha : String) : List String :=
  (reachS s [tipSha]).filter (fun sha => decide (sha ∉ reachS s [tp]))

/-- Lookup of a list of commit objects (`repo.commit(sha)` per sha, raising
on a missing object). -/
def fetchCommits (s : GitState) (shas : List String) : Except String (List Commit) :=
  mapME (fun sha => (findCommit s sha).elim (Except.error "bad object") Except.ok) shas

/-- Accumulator of `collect_merged_upstreams`. -/
structure MergeAcc where
  visited : List String
  map : List (String × List String)
deriving DecidableEq, Repr

/-- Inner loop of `collect_merged_upstreams` (tree.py lines 327-335): visit
each trunk commit once, recording its upstream trailer names. -/
def visitTrunkCommits (acc : MergeAcc) : List Commit → MergeAcc
  | [] => acc
  | c :: rest =>
    if c.hexsha ∈ acc.visited then visitTrunkCommits acc rest
    else
      visitTrunkCommits
        { visited := acc.visited ++ [c.hexsha]
          map := (get_upstream_names c.message).foldl
            (fun m n => alistAppendAt m n c.hexsha) acc.map }
        rest

/-- `collect_merged_upstreams` from src/heady/tree.py (lines 318-337): walks
trunk history strictly between the oldest trunk commit's first parent and
each trunk tip, deduplicating commits shared between trunk refs. -/
def collect_merged_upstreams (r : HeadyRepo) (s : GitState) (oldestTrunkCommit : Commit) :
    Except String (List (String × List String)) :=
  match oldestTrunkCommit.parents with
  | [] => .error "oldest trunk commit has no parent"
  | trunkParentSha :: _ => do
    let trunkShas ← trunkShasOf r s
    let acc ← foldlME
      (fun (acc : MergeAcc) (ts : String) => do
        let cs ← fetchCommits s (rangeShas s trunkParentSha ts)
        .ok (visitTrunkCommits acc cs))
      ⟨[], []⟩ trunkShas
    .ok acc.map

/-- Branch commit set of `build_tree` (tree.py lines 206-208): commits
reachable from a surviving tip but from no trunk ref. -/
def branchShasOf (curTime : Int) (s : GitState) (trunkShas : List String) : List String :=
  revListSet s (keptTipsOf curTime s trunkShas) trunkShas

/-- Node-construction loop of `build_tree` (tree.py lines 251-254): one
`CommitNode` per branch commit, keyed by its sha, threading the
`visible_upstream_shas` side table. -/
def buildCommitNodes (r : HeadyRepo) (s : GitState)
    (hideList amendedShas movedShas : List String)
    (sb : List (String × List String)) (bcs : List Commit) :
    List (String × List String) × List (String × CommitNode) :=
  bcs.foldl
    (fun acc bc =>
      let res := make_node r s hideList amendedShas movedShas sb acc.1 bc false
      (res.1, acc.2 ++ [(bc.hexsha, res.2)]))
    ([], [])

/-- Trunk node loop of `build_tree` (tree.py lines 256-260). -/
def buildTrunkNodes (r : HeadyRepo) (s : GitState)
    (hideList amendedShas movedShas : List String)
    (sb : List (String × List String))
    (visUp : List (String × List String)) (tcs : List Commit) :
    List (String × List String) × List (String × CommitNode) :=
  tcs.foldl
    (fun acc tc =>
      let res := make_node r s hideList amendedShas movedShas sb acc.1 tc true
      (res.1, alistSet acc.2 tc.hexsha res.2))
    (visUp, [])

/-- Linking loop of `build_tree` (tree.py lines 262-275): each non-trunk
node is appended to the children of its first parent; a parent outside the
branch set gets a lazily created trunk node. -/
def linkNodes (r : HeadyRepo) (s : GitState)
    (hideList amendedShas movedShas : List String)
    (sb : List (String × List String))
    (commitNodes : List (String × CommitNode)) :
    List (String × List String) → List (String × CommitNode) →
    List (String × CommitNode) → List (String × List String) →
    Except String
      (List (String × List String) × List (String × CommitNode) ×
        List (String × List String))
  | visUp, trunkNodes, [], children => .ok (visUp, trunkNodes, children)
  | visUp, trunkNodes, (sha, node) :: rest, children =>
    match node.commit.parents with
    | [] => .error "Error finding parent"
    | parentSha :: _ =>
      if commitNodes.any (fun p => p.1 = parentSha) then
        linkNodes r s hideList amendedShas movedShas sb commitNodes
          visUp trunkNodes rest (alistAppendAt children parentSha sha)
      else if trunkNodes.any (fun p => p.1 = parentSha) then
        linkNodes r s hideList amendedShas movedShas sb commitNodes
          visUp trunkNodes rest (alistAppendAt children parentSha sha)
      else
        match findCommit s parentSha with
        | none => .error "bad object"
        | some parentCommit =>
          let mk := make_node r s hideList amendedShas movedShas sb visUp parentCommit true
          linkNodes r s hideList amendedShas movedShas sb commitNodes
            mk.1 (alistSet trunkNodes parentSha mk.2) rest
            (alistAppendAt children parentSha sha)

/-- Merged-upstream annotation of `build_tree` (tree.py lines 284-288):
every node whose upstream name appears in the merged map collects the
corresponding trunk shas. -/
def annotateMerged (merged : List (String × List String)) (node : CommitNode) : CommitNode :=
  { node with
    merged_upstream_shas :=
      node.upstreams.foldl
        (fun acc up => (alistGetD merged up.name []).foldl insertSet acc)
        node.merged_upstream_shas }

/-- Commit-node stage of `build_tree` on a repository state. -/
def cnOf (r : HeadyRepo) (curTime : Int) (s : GitState) (trunkShas : List String)
    (branchCommits : List Commit) :
    List (String × List String) × List (String × CommitNode) :=
  buildCommitNodes r s s.hideList (scanOf curTime s).amendedShas (scanOf curTime s).movedShas
    (specialBranchesOf r s trunkShas) branchCommits

/-- Trunk-node stage of `build_tree` on a repository state. -/
def tnOf (r : HeadyRepo) (curTime : Int) (s : GitState) (trunkShas : List String)
    (branchCommits trunkCommits : List Commit) :
    List (String × List String) × List (String × CommitNode) :=
  buildTrunkNodes r s s.hideList (scanOf curTime s).amendedShas (scanOf curTime s).movedShas
    (specialBranchesOf r s trunkShas) (cnOf r curTime s trunkShas branchCommits).1
    trunkCommits

/-- Linking stage of `build_tree` on a repository state. -/
def linkedOf (r : HeadyRepo) (curTime : Int) (s : GitState) (trunkShas : List String)
    (branchCommits trunkCommits : List Commit) :
    Except String
      (List (String × List String) × List (String × CommitNode) ×
        List (String × List String)) :=
  linkNodes r s s.hideList (scanOf curTime s).amendedShas (scanOf curTime s).movedShas
    (specialBranchesOf r s trunkShas) (cnOf r curTime s trunkShas branchCommits).2
    (tnOf r curTime s trunkShas branchCommits trunkCommits).1
    (tnOf r curTime s trunkShas branchCommits trunkCommits).2
    (cnOf r curTime s trunkShas branchCommits).2 []

/-- `build_tree` from src/heady/tree.py (lines 139-292), assembled from the
stages above exactly in source order.  `curTime` stands for
`datetime.datetime.now()`. -/
def build_tree (r : HeadyRepo) (curTime : Int) (s : GitState) : Except String HeadyTree :=
  Except.bind (trunkShasOf r s) fun trunkShas =>
  Except.bind (fetchCommits s (branchShasOf curTime s trunkShas)) fun branchCommits =>
  Except.bind (fetchCommits s trunkShas) fun trunkCommits =>
  Except.bind (linkedOf r curTime s trunkShas branchCommits trunkCommits) fun linked =>
  match (sortDesc (linked.2.1.map (fun p => p.2))).getLast? with
  | none => .error "no trunk nodes"
  | some oldestTrunkNode =>
    Except.bind (collect_merged_upstreams r s oldestTrunkNode.commit) fun merged =>
    .ok
      ⟨(cnOf r curTime s trunkShas branchCommits).2.map
          (fun p => (p.1, annotateMerged merged p.2)),
        sortDesc (linked.2.1.map (fun p => p.2)), linked.2.2,
        (scanOf curTime s).amendSourceMap, linked.1⟩

/-- `collect_subtree_shas` from src/heady/tree.py (lines 300-306), with the
node's children looked up per sha in the tree; the fuel argument bounds the
recursion depth (the tree is finite, `commit_nodes.length + 1` suffices). -/
def collect_subtree_shas (t : HeadyTree) : Nat → List String → String → List String
  | 0, dest, _ => dest
  | fuel + 1, dest, sha =>
    if sha ∈ dest then dest
    else (alistGetD t.children sha []).foldl (collect_subtree_shas t fuel) (dest ++ [sha])

/-- Guarded resolution of one hide root (main.py lines 163-178): the ref
must resolve, must not be an ancestor of a trunk ref, and must not be an
ancestor of HEAD. -/
def hideGuardedResolve (r : HeadyRepo) (s : GitState) (ref : String) :
    Except String String := do
  let sha ← (resolveRef s ref).elim (Except.error "bad revision") Except.ok
  let inTrunk ← isInTrunkE r s ref
  if inTrunk then Except.error "can not hide: would hide a trunk ref"
  else do
    let overHead ← isAncestorE s ref "HEAD"
    if overHead then Except.error "can not hide: would hide HEAD"
    else Except.ok sha

/-- Subtree collection of `hide_subtrees` (main.py lines 181-187): roots not
found in the visible tree are skipped, the rest contribute their whole
visible subtree to one shared accumulator. -/
def collectHideShas (t : HeadyTree) (rootShas : List String) : List String :=
  rootShas.foldl
    (fun dest sha =>
      if t.commit_nodes.any (fun p => p.1 = sha) then
        collect_subtree_shas t (t.commit_nodes.length + 1) dest sha
      else dest)
    []

/-- `hide_subtrees` from src/heady/main.py (lines 160-193): guard every hide
root against trunk and HEAD, build the tree, collect the visible subtrees of
the roots found in the tree, and append the not-yet-hidden shas to the
hide-list file. -/
def hide_subtrees (r : HeadyRepo) (curTime : Int) (s : GitState)
    (hideRootRefs : List String) : Except String GitState := do
  let rootShas ← mapME (hideGuardedResolve r s) hideRootRefs
  let t ← build_tree r curTime s
  let nodesToRemove :=
    (collectHideShas t rootShas).filter (fun sha => decide (sha ∉ s.hideList))
  .ok { s with hideList := s.hideList ++ nodesToRemove }

/-- `unhide_revs` from src/heady/main.py (lines 196-206): read the hide-list
as a set, drop each resolvable rev present on it (a missing rev is only
reported), and write the result back. -/
def unhide_revs (s : GitState) (unhideRevList : List String) : Except String GitState := do
  let newList ← foldlME
    (fun (hl : List String) rev => do
      let sha ← (resolveRef s rev).elim (Except.error "bad revision") Except.ok
      if sha ∈ hl then .ok (hl.filter (fun x => decide (x ≠ sha)))
      else .ok hl)
    (dedupList s.hideList) unhideRevList
  .ok { s with hideList := newList }

/-- Match of the upstream-ref pattern `^(.+?)/(.+)$` from `add_upstream`:
split at the first slash that leaves both a nonempty remote part before it
and a nonempty branch part after it. -/
def splitUpstreamAux (acc : List Char) : List Char → Option (String × String)
  | [] => none
  | c :: tail =>
    if c = '/' ∧ tail ≠ [] then some (String.mk acc.reverse, String.mk tail)
    else splitUpstreamAux (c :: acc) tail

/-- Parse `<remote>/<branch>` as the regex in `add_upstream` does. -/
def splitUpstreamRef (ref : String) : Option (String × String) :=
  match ref.toList with
  | [] => none
  | c0 :: rest => splitUpstreamAux [c0] rest

/-- First line of a commit message (used for modelled reflog messages). -/
def firstLine (message : String) : String :=
  match splitPy message '\n' with
  | [] => ""
  | l :: _ => l

/-- `_visit_commit` from src/heady/main.py (lines 420-425): refuse to move a
dirty working tree, then point HEAD at the destination, logging a
`heady visit:` reflog entry. -/
def visit_commit (s : GitState) (destSha : String) (curTime : Int) : Except String GitState :=
  if s.isDirty then .error "can not move while the repo is dirty"
  else
    .ok { s with
      headSha := destSha
      reflog := s.reflog ++ [⟨s.headSha, destSha, "heady visit:" ++ destSha, curTime⟩] }

/-- Modelled from the spec: `git commit --amend` is part of the external VCS
engine; it mints a fresh commit with the amended message and the old
commit's parents, moves HEAD to it, and logs a reflog entry with the native
`commit (amend):` message prefix.  The fresh content hash is modelled as a
tagged name. -/
def amendCurrentCommit (s : GitState) (newMessage : String) (curTime : Int) : GitState :=
  match findCommit s s.headSha with
  | none => s
  | some old =>
    let newSha := "amend(" ++ old.hexsha ++ ")"
    { s with
      commits := ⟨newSha, old.parents, newMessage, curTime⟩ :: s.commits
      headSha := newSha
      reflog := s.reflog ++
        [⟨old.hexsha, newSha, "commit (amend): " ++ firstLine newMessage, curTime⟩] }

/-- Modelled from the spec: `git cherry-pick` is part of the external VCS
engine; on success it creates a fresh commit carrying the source commit's
message with the current HEAD as sole parent and moves HEAD to it (conflict
outcomes are outside this model).  The fresh hash is a tagged name. -/
def cherryPick (s : GitState) (sourceSha : String) (curTime : Int) : Except String GitState :=
  match findCommit s sourceSha with
  | none => .error "bad object"
  | some src =>
    let newSha := "pick(" ++ sourceSha ++ "," ++ s.headSha ++ ")"
    .ok { s with
      commits := ⟨newSha, [s.headSha], src.message, curTime⟩ :: s.commits
      headSha := newSha
      reflog := s.reflog ++
        [⟨s.headSha, newSha, "cherry-pick: " ++ firstLine src.message, curTime⟩] }

/-- Provenance recording of `_move_commits_recursive` (main.py lines
404-406): point HEAD back at the source commit, then at the new commit with
the `heady move:` message.  Modelled from the spec: each `set_reference`
writes one reference-log entry (section 4.3 describes the two consecutive
entries; the first, message-less call is modelled with an empty message). -/
def recordMoveProvenance (s : GitState) (sourceSha newSha : String) (curTime : Int) : GitState :=
  { s with
    headSha := newSha
    reflog := s.reflog ++
      [⟨s.headSha, sourceSha, "", curTime⟩,
       ⟨sourceSha, newSha, "heady move: " ++ sourceSha, curTime⟩] }

mutual

/-- `_move_commits_recursive` from src/heady/main.py (lines 393-408):
cherry-pick the source onto HEAD, record the move provenance, then restack
the source's children (as found in the tree snapshot) onto the new commit.
The fuel bounds the recursion depth over the finite tree. -/
def move_commits_recursive (r : HeadyRepo) (t : HeadyTree) (curTime : Int) :
    Nat → GitState → String → Except String GitState
  | 0, _, _ => .error "recursion limit"
  | fuel + 1, s, sourceSha => do
    let s1 ← cherryPick s sourceSha curTime
    let s2 := recordMoveProvenance s1 sourceSha s1.headSha curTime
    moveChildrenToHead r t curTime fuel s2 sourceSha

/-- `_move_children_to_head` from src/heady/main.py (lines 411-417): move
each child of the source parent onto the current HEAD, re-checking out the
base commit between siblings. -/
def moveChildrenToHead (r : HeadyRepo) (t : HeadyTree) (curTime : Int) :
    Nat → GitState → String → Except String GitState
  | 0, _, _ => .error "recursion limit"
  | fuel + 1, s, sourceParentSha =>
    foldlME
      (fun st childSha => do
        let st1 ← move_commits_recursive r t curTime fuel st childSha
        visit_commit st1 s.headSha curTime)
      s (alistGetD t.children sourceParentSha [])

end

/-- `add_upstream` from src/heady/main.py (lines 209-237): build the tree,
guard the target against trunk and invisibility, parse and check the
upstream ref, then amend the target's message with the upstream trailer and
restack its former children onto the amended commit. -/
def add_upstream (r : HeadyRepo) (curTime : Int) (s : GitState)
    (upstreamRef rev : String) : Except String GitState := do
  let t ← build_tree r curTime s
  let sourceCommit ← (resolveCommit s rev).elim (Except.error "bad revision") Except.ok
  let inTrunk ← isInTrunkE r s rev
  if inTrunk then .error "can not add upstream: it is in trunk"
  else if ¬ t.commit_nodes.any (fun p => p.1 = sourceCommit.hexsha) then
    .error "can not add upstream: it is not visible in the tree"
  else
    match splitUpstreamRef upstreamRef with
    | none => .error "upstream ref must be in the format remote/branch"
    | some parts =>
      if parts.1 ∉ s.remotes then .error "remote not found"
      else do
        let s1 ← visit_commit s sourceCommit.hexsha curTime
        let newMessage := sourceCommit.message ++ "\nupstream: " ++ upstreamRef ++ "\n"
        let s2 := amendCurrentCommit s1 newMessage curTime
        let amendedSha := s2.headSha
        let s3 ← moveChildrenToHead r t curTime (t.commit_nodes.length + 1) s2
          sourceCommit.hexsha
        visit_commit s3 amendedSha curTime

/-- Transitive amend-chain walk of `fixup_commit` (main.py lines 310-319):
follow `amend_source_map` backwards, collecting the visible children of
every node on the chain.  The fuel bounds the walk (the chain visits
distinct map keys, so `amend_source_map.length + 1` suffices for the
acyclic maps git produces). -/
def collectAmendChainChildren (t : HeadyTree) : Nat → String → List String → List String
  | 0, _, acc => acc
  | fuel + 1, sha, acc =>
    let acc :=
      if t.commit_nodes.any (fun p => p.1 = sha) then
        (alistGetD t.children sha []).foldl
          (fun a ch =>
            match alistGet t.commit_nodes ch with
            | some chNode => if chNode.is_hidden then a else insertSet a ch
            | none => a)
          acc
      else acc
    match alistGet t.amend_source_map sha with
    | none => acc
    | some nxt => collectAmendChainChildren t fuel nxt acc

/-- `fixup_commit` from src/heady/main.py (lines 300-328): if HEAD has no
amend history, or the amend chain has no visible children, report and leave
every part of the repository state untouched; otherwise restack each
collected child onto the current HEAD. -/
def fixup_commit (r : HeadyRepo) (curTime : Int) (s : GitState) : Except String GitState := do
  let t ← build_tree r curTime s
  match findCommit s s.headSha with
  | none => .error "bad revision"
  | some startingHeadCommit =>
    match alistGet t.amend_source_map s.headSha with
    | none => .ok s
    | some firstSourceSha =>
      let childShas :=
        collectAmendChainChildren t (t.amend_source_map.length + 1) firstSourceSha []
      if childShas = [] then .ok s
      else do
        let sF ← foldlME
          (fun st childSha => do
            let st1 ← visit_commit st startingHeadCommit.hexsha curTime
            move_commits_recursive r t curTime (t.commit_nodes.length + 1) st1 childSha)
          s childShas
        visit_commit sF startingHeadCommit.hexsha curTime

/-- `_plan_push` from src/heady/main.py (lines 382-390) as written: the loop
body evaluates `upstream.startswith(...)` where `upstream` is an `Upstream`
dataclass value, not a string, so the first upstream of any node raises
`AttributeError`; a node without upstreams recurses into its children. -/
def plan_push (t : HeadyTree) (remote : String) : Nat → String → Except String (List String)
  | 0, _ => .error "recursion limit"
  | fuel + 1, sha =>
    match alistGet t.commit_nodes sha with
    | none => .error "node not found"
    | some node =>
      match node.upstreams with
      | _ :: _ => .error "AttributeError: Upstream object has no attribute startswith"
      | [] =>
        foldlME
          (fun acc childSha => do
            let res ← plan_push t remote fuel childSha
            .ok (acc ++ res))
          [] (alistGetD t.children sha [])

/-- Python `u[u.find("/") + 1:]` on the intended string operand: everything
after the first slash (the whole string when no slash occurs). -/
def afterFirstSlash (u : String) : String :=
  match splitPy u '/' with
  | [] => ""
  | [whole] => whole
  | _ :: rest => String.intercalate "/" rest

/-- Modelled from the spec: push planning as section 4.3 describes it — a
pure recursive walk of the subtree collecting `sha:refs/heads/branch` pairs
for every upstream whose name starts with `remote + "/"`, the branch being
the part of the name after its first slash. -/
def planPushSpec (t : HeadyTree) (remote : String) : Nat → String → List String
  | 0, _ => []
  | fuel + 1, sha =>
    match alistGet t.commit_nodes sha with
    | none => []
    | some node =>
      let own := node.upstreams.foldl
        (fun acc up =>
          if startsWithPy up.name (remote ++ "/") then
            acc ++ [sha ++ ":refs/heads/" ++ afterFirstSlash up.name]
          else acc)
        []
      (alistGetD t.children sha []).foldl
        (fun acc childSha => acc ++ planPushSpec t remote fuel childSha)
        own

/-- One step of ancestry: `b` is a parent of the commit with hash `a`. -/
def ParentStep (s : GitState) (a b : String) : Prop :=
  ∃ c, findCommit s a = some c ∧ b ∈ c.parents

/-- Specification-level reachability over the commit DAG: reflexive
transitive closure of the parent relation. -/
def Reaches (s : GitState) (a b : String) : Prop :=
  Relation.ReflTransGen (fun x y => ParentStep s x y) a b

/-- Repository configuration used by the concrete scenario states. -/
def repoO : HeadyRepo := ⟨["origin/main"], "origin"⟩

/-- Concrete state: trunk at `t0` (parent `p0`), one stacked commit `a0`
carrying an `upstream: origin/feat` trailer, reached through the reflog. -/
def stateA : GitState :=
  { commits :=
      [⟨"a0", ["t0"], "Add feature\n\nupstream: origin/feat\n", 300⟩,
       ⟨"t0", ["p0"], "Trunk commit", 200⟩,
       ⟨"p0", [], "Root commit", 100⟩]
    reflog := [⟨"t0", "a0", "commit: Add feature", 300⟩]
    heads := []
    remoteRefs := [("origin/main", "t0")]
    remotes := ["origin"]
    headSha := "a0"
    hideList := []
    isDirty := false }

/-- Parametric C1 scenario state: trunk ref `origin/main` at commit `t0`
(parent `p0`), exactly one non-trunk local commit `a0` whose first parent is
`t0` and whose message carries the trailer `upstream: origin/feat`; no
remote ref `origin/feat` resolves.  The commit and reflog timestamps are
arbitrary. -/
def c1State (tP tT tA tR : Int) : GitState :=
  { commits :=
      [⟨"a0", ["t0"], "Add feature\n\nupstream: origin/feat\n", tA⟩,
       ⟨"t0", ["p0"], "Trunk commit", tT⟩,
       ⟨"p0", [], "Root commit", tP⟩]
    reflog := [⟨"t0", "a0", "commit: Add feature", tR⟩]
    heads := []
    remoteRefs := [("origin/main", "t0")]
    remotes := ["origin"]
    headSha := "a0"
    hideList := []
    isDirty := false }

/-- Node that `build_tree` constructs for the stacked commit `a0` of the C1
scenario: visible, one unresolved upstream, no merged upstream shas. -/
def c1NodeA (tA : Int) : CommitNode :=
  ⟨⟨"a0", ["t0"], "Add feature\n\nupstream: origin/feat\n", tA⟩, false,
    [⟨"origin/feat", none, none⟩], [], [], false⟩

/-- Node that `build_tree` constructs for the trunk commit `t0` of the C1
scenario. -/
def c1NodeT (tT : Int) : CommitNode :=
  ⟨⟨"t0", ["p0"], "Trunk commit", tT⟩, false, [], ["origin/main"], [], true⟩

/-- The full tree `build_tree` returns on the C1 scenario: one trunk node
(`t0`) whose only child is `a0`, which is the only stacked node. -/
def c1Tree (_tP tT tA : Int) : HeadyTree :=
  ⟨[("a0", c1NodeA tA)], [c1NodeT tT], [("t0", ["a0"])], [],
    [("origin/feat", ["a0"])]⟩

/-- Concrete state: the sha `h1` is on the hide-list but a local branch head
still points at it. -/
def stateHiddenBranch : GitState :=
  { commits :=
      [⟨"h1", ["t0"], "Hidden work", 300⟩,
       ⟨"t0", ["p0"], "Trunk commit", 200⟩,
       ⟨"p0", [], "Root commit", 100⟩]
    reflog := []
    heads := [⟨"refs/heads/feature", "h1"⟩]
    remoteRefs := [("origin/main", "t0")]
    remotes := ["origin"]
    headSha := "t0"
    hideList := ["h1"]
    isDirty := false }

/-- Concrete state: `a1` is already hidden but its child `b1` is visible. -/
def stateHiddenParent : GitState :=
  { commits :=
      [⟨"b1", ["a1"], "child", 400⟩,
       ⟨"a1", ["t0"], "parent", 300⟩,
       ⟨"t0", ["p0"], "Trunk commit", 200⟩,
       ⟨"p0", [], "Root commit", 100⟩]
    reflog := [⟨"a1", "b1", "commit: child", 400⟩]
    heads := []
    remoteRefs := [("origin/main", "t0")]
    remotes := ["origin"]
    headSha := "t0"
    hideList := ["a1"]
    isDirty := false }

/-- Concrete state: visible commit `a1` with visible child `b1`, nothing
hidden yet. -/
def stateParentChild : GitState :=
  { stateHiddenParent with hideList := [] }

/-- Concrete state: a move source commit `src` that a local branch head
still points at, next to its destination `dst`. -/
def stateMove : GitState :=
  { commits :=
      [⟨"dst", ["t0"], "dest", 350⟩,
       ⟨"src", ["t0"], "source", 300⟩,
       ⟨"t0", ["p0"], "Trunk commit", 200⟩,
       ⟨"p0", [], "Root commit", 100⟩]
    reflog := [⟨"t0", "src", "commit: source", 300⟩, ⟨"src", "dst", "commit: dest", 350⟩]
    heads := [⟨"refs/heads/feature", "src"⟩]
    remoteRefs := [("origin/main", "t0")]
    remotes := ["origin"]
    headSha := "dst"
    hideList := []
    isDirty := false }

/-- Tree snapshot built on `stateMove`. -/
def treeMove : HeadyTree := (build_tree repoO 400 stateMove).toOption.getD ⟨[], [], [], [], []⟩

/-- Concrete state: a visible, non-trunk commit `lab` that already carries a
`heady_label:` trailer. -/
def stateLabeled : GitState :=
  { commits :=
      [⟨"lab", ["t0"], "labeled\n\nheady_label: mine-1\n", 300⟩,
       ⟨"t0", ["p0"], "Trunk commit", 200⟩,
       ⟨"p0", [], "Root commit", 100⟩]
    reflog := [⟨"t0", "lab", "commit: labeled", 300⟩]
    heads := []
    remoteRefs := [("origin/main", "t0")]
    remotes := ["origin"]
    headSha := "lab"
    hideList := []
    isDirty := false }

/-- Concrete state: trunk tip `t1` carries an `upstream: origin/feat`
trailer, recording that the feature branch has been merged. -/
def stateMerged : GitState :=
  { commits :=
      [⟨"t1", ["t0"], "Merge feat\n\nupstream: origin/feat\n", 300⟩,
       ⟨"t0", ["p0"], "Trunk base", 200⟩,
       ⟨"p0", [], "Root commit", 100⟩]
    reflog := []
    heads := []
    remoteRefs := [("origin/main", "t1")]
    remotes := ["origin"]
    headSha := "t1"
    hideList := []
    isDirty := false }

/-- The trunk tip commit of `stateMerged`. -/
def trunkCommitMerged : Commit :=
  ⟨"t1", ["t0"], "Merge feat\n\nupstream: origin/feat\n", 300⟩

/-- Merged-upstream map computed on `stateMerged`. -/
def mergedMapVal : List (String × List String) :=
  (collect_merged_upstreams repoO stateMerged trunkCommitMerged).toOption.getD []

/-- Tree snapshot built on `stateA`. -/
def treeA : HeadyTree := (build_tree repoO 400 stateA).toOption.getD ⟨[], [], [], [], []⟩

/-- Tree snapshot built on `stateLabeled`. -/
def treeLabeled : HeadyTree :=
  (build_tree repoO 400 stateLabeled).toOption.getD ⟨[], [], [], [], []⟩

/-- Tree snapshot built on `stateParentChild`. -/
def treeParentChild : HeadyTree :=
  (build_tree repoO 500 stateParentChild).toOption.getD ⟨[], [], [], [], []⟩

/-- Concrete state: `a1` and its child `b1` are both already hidden. -/
def stateAllHidden : GitState :=
  { stateHiddenParent with hideList := ["a1", "b1"] }

/-- Tree snapshot built on `stateAllHidden`. -/
def treeAllHidden : HeadyTree :=
  (build_tree repoO 500 stateAllHidden).toOption.getD ⟨[], [], [], [], []⟩

/-- One-node tree whose node carries an upstream, used to exercise push
planning. -/
def treePush : HeadyTree :=
  ⟨[("a1",
     { commit := ⟨"a1", ["t0"], "m\n\nupstream: origin/feat\n", 300⟩
       is_hidden := false
       upstreams := [⟨"origin/feat", none, none⟩]
       refs := []
       merged_upstream_shas := []
       in_trunk := false })],
   [], [], [], []⟩

theorem mem_insertSet {α : Type} [DecidableEq α] {l : List α} {x y : α} :
    y ∈ insertSet l x ↔ y ∈ l ∨ y = x := by
  unfold insertSet
  split
  · rename_i hx
    constructor
    · exact fun h => Or.inl h
    · rintro (h | rfl)
      · exact h
      · exact hx
  · simp [List.mem_append]

theorem self_mem_insertSet {α : Type} [DecidableEq α] (l : List α) (x : α) :
    x ∈ insertSet l x := by
  rw [mem_insertSet]
  exact Or.inr rfl

theorem mem_insertSet_of_mem {α : Type} [DecidableEq α] {l : List α} {y : α} (x : α)
    (h : y ∈ l) : y ∈ insertSet l x := by
  rw [mem_insertSet]
  exact Or.inl h

theorem mem_foldl_insertSet {α : Type} [DecidableEq α] (l : List α) (acc : List α) (y : α) :
    y ∈ l.foldl insertSet acc ↔ y ∈ acc ∨ y ∈ l := by
  induction l generalizing acc with
  | nil => simp
  | cons a l ih =>
    rw [List.foldl_cons, ih, mem_insertSet]
    simp [or_assoc]

theorem mem_dedupList {α : Type} [DecidableEq α] (l : List α) (y : α) :
    y ∈ dedupList l ↔ y ∈ l := by
  unfold dedupList
  rw [mem_foldl_insertSet]
  simp

theorem alistGet_cons {α : Type} (k k' : String) (v : α) (m : List (String × α)) :
    alistGet ((k', v) :: m) k = if k' = k then some v else alistGet m k := by
  unfold alistGet
  split
  · rename_i h
    rw [List.find?_cons_of_pos]
    · simp
    · simp [h]
  · rename_i h
    rw [List.find?_cons_of_neg]
    simp [h]

theorem alistGet_alistAppendAt_self (m : List (String × List String)) (k x : String) :
    alistGet (alistAppendAt m k x) k = some (alistGetD m k [] ++ [x]) := by
  induction m with
  | nil => simp [alistAppendAt, alistGet, alistGetD]
  | cons p m ih =>
    obtain ⟨k', xs⟩ := p
    unfold alistAppendAt
    split
    · rename_i h
      subst h
      simp [alistGet_cons, alistGetD]
    · rename_i h
      rw [alistGet_cons, if_neg h, ih]
      unfold alistGetD
      rw [alistGet_cons, if_neg h]

theorem alistGet_alistAppendAt_ne (m : List (String × List String)) (k k' x : String)
    (h : k' ≠ k) : alistGet (alistAppendAt m k x) k' = alistGet m k' := by
  induction m with
  | nil => simp [alistAppendAt, alistGet_cons, Ne.symm h, alistGet]
  | cons p m ih =>
    obtain ⟨k0, xs⟩ := p
    unfold alistAppendAt
    split
    · rename_i h0
      subst h0
      rw [alistGet_cons, alistGet_cons, if_neg (Ne.symm h), if_neg (Ne.symm h)]
    · rename_i h0
      rw [alistGet_cons, alistGet_cons, ih]

theorem alistGet_alistSet_self {α : Type} (m : List (String × α)) (k : String) (v : α) :
    alistGet (alistSet m k v) k = some v := by
  induction m with
  | nil => simp [alistSet, alistGet_cons]
  | cons p m ih =>
    obtain ⟨k0, v0⟩ := p
    unfold alistSet
    split
    · rename_i h0
      subst h0
      simp [alistGet_cons]
    · rw [alistGet_cons, if_neg ‹k0 ≠ k›, ih]

theorem alistGet_alistSet_ne {α : Type} (m : List (String × α)) (k k' : String) (v : α)
    (h : k' ≠ k) : alistGet (alistSet m k v) k' = alistGet m k' := by
  induction m with
  | nil => simp [alistSet, alistGet_cons, Ne.symm h, alistGet]
  | cons p m ih =>
    obtain ⟨k0, v0⟩ := p
    unfold alistSet
    split
    · rename_i h0
      subst h0
      rw [alistGet_cons, alistGet_cons, if_neg (Ne.symm h), if_neg (Ne.symm h)]
    · rw [alistGet_cons, alistGet_cons, ih]

theorem mapME_cons {α β : Type} (f : α → Except String β) (x : α) (xs : List α) :
    mapME f (x :: xs) =
      Except.bind (f x)
        (fun y => Except.bind (mapME f xs) (fun ys => Except.ok (y :: ys))) := rfl

theorem foldlME_cons {σ α : Type} (f : σ → α → Except String σ) (s : σ) (x : α)
    (xs : List α) :
    foldlME f s (x :: xs) = Except.bind (f s x) (fun s' => foldlME f s' xs) := rfl

theorem mapME_ok_forward {α β : Type} {f : α → Except String β} :
    ∀ {xs : List α} {ys : List β}, mapME f xs = .ok ys →
      ∀ y ∈ ys, ∃ x ∈ xs, f x = .ok y := by
  intro xs
  induction xs with
  | nil =>
    intro ys h y hy
    simp [mapME] at h
    subst h
    simp at hy
  | cons x xs ih =>
    intro ys h y hy
    rw [mapME_cons] at h
    cases hfx : f x with
    | error e => rw [hfx] at h; simp [Except.bind] at h
    | ok b =>
      rw [hfx] at h
      cases hrest : mapME f xs with
      | error e => rw [hrest] at h; simp [Except.bind] at h
      | ok bs =>
        rw [hrest] at h
        simp [Except.bind] at h
        subst h
        rcases List.mem_cons.mp hy with rfl | hy'
        · exact ⟨x, List.mem_cons_self x xs, hfx⟩
        · obtain ⟨x', hx', hfx'⟩ := ih hrest y hy'
          exact ⟨x', List.mem_cons_of_mem x hx', hfx'⟩

theorem mapME_ok_backward {α β : Type} {f : α → Except String β} :
    ∀ {xs : List α} {ys : List β}, mapME f xs = .ok ys →
      ∀ x ∈ xs, ∃ y ∈ ys, f x = .ok y := by
  intro xs
  induction xs with
  | nil =>
    intro ys h x hx
    simp at hx
  | cons x xs ih =>
    intro ys h x' hx'
    rw [mapME_cons] at h
    cases hfx : f x with
    | error e => rw [hfx] at h; simp [Except.bind] at h
    | ok b =>
      rw [hfx] at h
      cases hrest : mapME f xs with
      | error e => rw [hrest] at h; simp [Except.bind] at h
      | ok bs =>
        rw [hrest] at h
        simp [Except.bind] at h
        subst h
        rcases List.mem_cons.mp hx' with rfl | hx''
        · exact ⟨b, List.mem_cons_self b bs, hfx⟩
        · obtain ⟨y, hy, hfy⟩ := ih hrest x' hx''
          exact ⟨y, List.mem_cons_of_mem b hy, hfy⟩

theorem listSetEqB_true_iff (a b : List String) :
    listSetEqB a b = true ↔ (∀ x ∈ a, x ∈ b) ∧ ∀ x ∈ b, x ∈ a := by
  unfold listSetEqB
  rw [Bool.and_eq_true, List.all_eq_true, List.all_eq_true]
  simp

theorem topoOkB_cons_iff (c : Commit) (rest : List Commit) :
    topoOkB (c :: rest) = true ↔
      (∀ p ∈ c.parents, ∃ d ∈ rest, d.hexsha = p) ∧
        (∀ d ∈ rest, d.hexsha ≠ c.hexsha) ∧ topoOkB rest = true := by
  show (_ && _ && _) = true ↔ _
  rw [Bool.and_eq_true, Bool.and_eq_true, List.all_eq_true, List.all_eq_true]
  simp [List.any_eq_true, and_assoc]

theorem reachAux_acc_mem (cs : List Commit) (acc : List String) (x : String)
    (h : x ∈ acc) : x ∈ reachAux cs acc := by
  induction cs generalizing acc with
  | nil => exact h
  | cons c rest ih =>
    unfold reachAux
    apply ih
    split
    · rw [mem_foldl_insertSet]
      exact Or.inl h
    · exact h

theorem reachAux_mono (cs : List Commit) (acc₁ acc₂ : List String)
    (hsub : ∀ x ∈ acc₁, x ∈ acc₂) : ∀ x ∈ reachAux cs acc₁, x ∈ reachAux cs acc₂ := by
  induction cs generalizing acc₁ acc₂ with
  | nil => exact hsub
  | cons c rest ih =>
    intro x hx
    unfold reachAux at hx ⊢
    apply ih _ _ _ x hx
    intro y hy
    by_cases h1 : c.hexsha ∈ acc₁
    · rw [if_pos h1] at hy
      rw [if_pos (hsub _ h1)]
      rw [mem_foldl_insertSet] at hy ⊢
      rcases hy with hy | hy
      · exact Or.inl (hsub _ hy)
      · exact Or.inr hy
    · rw [if_neg h1] at hy
      split
      · rw [mem_foldl_insertSet]
        exact Or.inl (hsub _ hy)
      · exact hsub _ hy

theorem reachAux_range (cs : List Commit) (htopo : topoOkB cs = true)
    (acc : List String) (x : String) (hx : x ∈ reachAux cs acc) :
    x ∈ acc ∨ x ∈ cs.map (fun c => c.hexsha) := by
  induction cs generalizing acc with
  | nil => exact Or.inl hx
  | cons c rest ih =>
    rw [topoOkB_cons_iff] at htopo
    obtain ⟨hpar, _hne, htopo'⟩ := htopo
    unfold reachAux at hx
    rcases ih htopo' _ hx with h | h
    · by_cases h1 : c.hexsha ∈ acc
      · rw [if_pos h1, mem_foldl_insertSet] at h
        rcases h with h | h
        · exact Or.inl h
        · obtain ⟨d, hd, hdx⟩ := hpar x h
          exact Or.inr (by simp [List.mem_map]; exact Or.inr ⟨d, hd, hdx⟩)
      · rw [if_neg h1] at h
        exact Or.inl h
    · exact Or.inr (by simp at h ⊢; exact Or.inr h)

theorem reachAux_closure (cs : List Commit) (htopo : topoOkB cs = true)
    (acc : List String) (c : Commit) (hc : c ∈ cs)
    (hmem : c.hexsha ∈ reachAux cs acc) :
    ∀ p ∈ c.parents, p ∈ reachAux cs acc := by
  induction cs generalizing acc with
  | nil => cases hc
  | cons d rest ih =>
    have htopo0 := htopo
    rw [topoOkB_cons_iff] at htopo0
    obtain ⟨hpar, hne, htopo'⟩ := htopo0
    intro p hp
    unfold reachAux at hmem ⊢
    rcases List.mem_cons.mp hc with rfl | hc'
    · have hacc : c.hexsha ∈ acc := by
        rcases reachAux_range rest htopo' _ _ hmem with h | h
        · by_cases h1 : c.hexsha ∈ acc
          · exact h1
          · rw [if_neg h1] at h
            exact h
        · exfalso
          rw [List.mem_map] at h
          obtain ⟨d, hd, hdx⟩ := h
          exact hne d hd hdx
      rw [if_pos hacc]
      apply reachAux_acc_mem
      rw [mem_foldl_insertSet]
      exact Or.inr hp
    · exact ih htopo' _ hc' hmem p hp

theorem find_self_of_topo (l : List Commit) (htopo : topoOkB l = true) :
    ∀ c ∈ l, l.find? (fun d => d.hexsha = c.hexsha) = some c := by
  induction l with
  | nil => simp
  | cons d rest ih =>
    rw [topoOkB_cons_iff] at htopo
    obtain ⟨_, hne, htopo'⟩ := htopo
    intro c hc
    rcases List.mem_cons.mp hc with rfl | hc'
    · rw [List.find?_cons_of_pos]
      simp
    · rw [List.find?_cons_of_neg]
      · exact ih htopo' c hc'
      · simp
        exact Ne.symm (hne c hc')

theorem WellFormed_findCommit_self (s : GitState) (hwf : WellFormed s = true) :
    ∀ c ∈ s.commits, findCommit s c.hexsha = some c := by
  intro c hc
  unfold findCommit
  exact find_self_of_topo s.commits hwf c hc

theorem findCommit_hexsha (s : GitState) (sha : String) (c : Commit)
    (h : findCommit s sha = some c) : c.hexsha = sha ∧ c ∈ s.commits := by
  unfold findCommit at h
  have h1 := List.find?_some h
  have h2 := List.mem_of_find?_eq_some h
  simp at h1
  exact ⟨h1, h2⟩

theorem reach_complete (s : GitState) (hwf : WellFormed s = true)
    (roots : List String) (r : String) (hr : r ∈ roots) (x : String)
    (hreach : Reaches s r x) : x ∈ reachS s roots := by
  induction hreach with
  | refl => exact reachAux_acc_mem _ _ _ hr
  | tail _hab hstep ih =>
    rename_i b c
    obtain ⟨cm, hfind, hpar⟩ := hstep
    obtain ⟨hsha, hmemc⟩ := findCommit_hexsha s b cm hfind
    exact reachAux_closure s.commits hwf roots cm hmemc (hsha ▸ ih) c hpar

theorem reach_sound_aux (s : GitState) (roots : List String) :
    ∀ (cs : List Commit), (∀ c ∈ cs, findCommit s c.hexsha = some c) →
      ∀ (acc : List String), (∀ a ∈ acc, ∃ r ∈ roots, Reaches s r a) →
        ∀ x ∈ reachAux cs acc, ∃ r ∈ roots, Reaches s r x := by
  intro cs
  induction cs with
  | nil =>
    intro _ acc hacc x hx
    exact hacc x hx
  | cons c rest ih =>
    intro hcan acc hacc x hx
    unfold reachAux at hx
    refine ih (fun d hd => hcan d (List.mem_cons_of_mem c hd)) _ ?_ x hx
    intro a ha
    by_cases h1 : c.hexsha ∈ acc
    · rw [if_pos h1, mem_foldl_insertSet] at ha
      rcases ha with ha | ha
      · exact hacc a ha
      · obtain ⟨r, hr, hre⟩ := hacc c.hexsha h1
        refine ⟨r, hr, Relation.ReflTransGen.tail hre ?_⟩
        exact ⟨c, hcan c (List.mem_cons_self c rest), ha⟩
    · rw [if_neg h1] at ha
      exact hacc a ha

theorem reach_sound (s : GitState) (hwf : WellFormed s = true) (roots : List String)
    (x : String) (hx : x ∈ reachS s roots) : ∃ r ∈ roots, Reaches s r x := by
  refine reach_sound_aux s roots s.commits (WellFormed_findCommit_self s hwf) roots ?_ x hx
  intro a ha
  exact ⟨a, ha, Relation.ReflTransGen.refl⟩

theorem bindE_ok {α β : Type} (a : α) (f : α → Except String β) :
    Bind.bind (Except.ok a) f = f a := rfl

theorem bindE_err {α β : Type} (e : String) (f : α → Except String β) :
    Bind.bind (Except.error e) f = Except.error e := rfl

theorem resolveCommit_findCommit (s : GitState) (rev : String) (c : Commit)
    (h : resolveCommit s rev = some c) : findCommit s c.hexsha = some c := by
  unfold resolveCommit at h
  cases hres : resolveRef s rev with
  | none => rw [hres] at h; simp at h
  | some sha =>
    rw [hres] at h
    simp [Option.bind] at h
    obtain ⟨hsha, _⟩ := findCommit_hexsha s sha c h
    rw [hsha]
    exact h

/-- C8: push planning is claimed to be a pure walk returning one
`sha:refs/heads/branch` pair per subtree node and matching upstream; the
code as written instead evaluates `upstream.startswith(...)` on the
`Upstream` dataclass value, so on a tree whose root node carries the single
upstream `origin/feat` it raises `AttributeError` where the claimed
behaviour (restored in `planPushSpec`, modelled from the spec) would return
`["a1:refs/heads/feat"]`. -/
theorem c8_plan_push_attribute_error :
    plan_push treePush "origin" 2 "a1" =
        .error "AttributeError: Upstream object has no attribute startswith" ∧
      planPushSpec treePush "origin" 2 "a1" = ["a1:refs/heads/feat"] := by
  constructor
  · rfl
  · rfl

/-- C2 counterexample: the sha `h1` sits on the persisted hide-list of
`stateHiddenBranch`, yet because a local branch head points at it, `h1` is
included in the tip set used for the ancestry range query — refuting the
claim that a hidden sha is never included in that tip set whether it comes
from the reflog walk or from a local branch head. -/
theorem c2_counterexample :
    "h1" ∈ stateHiddenBranch.hideList ∧
      (keptTipsE repoO 400 stateHiddenBranch).map
          (fun tips => decide ("h1" ∈ tips)) = .ok true := by
  constructor
  · decide
  · rfl

/-- C4 counterexample: `S = {a1}` is already contained in the hide-list of
`stateHiddenParent`, but running the hide operation on it appends the
visible child `b1`, changing the hide-list contents as a set — refuting the
claim that hiding an already-hidden sha set leaves the hide-list unchanged. -/
theorem c4_counterexample :
    "a1" ∈ stateHiddenParent.hideList ∧
      (hide_subtrees repoO 500 stateHiddenParent ["a1"]).map
          (fun s1 => listSetEqB s1.hideList stateHiddenParent.hideList) = .ok false := by
  constructor
  · decide
  · rfl

/-- C5 counterexample: `a1` is not an ancestor of trunk and not the checked
out commit in `stateParentChild`, yet hide then unhide of `{a1}` leaves the
child `b1` (collected by the hide) on the hide-list, so the original (empty)
hide-list is not restored. -/
theorem c5_counterexample :
    ((hide_subtrees repoO 500 stateParentChild ["a1"]).bind
          (fun s1 => unhide_revs s1 ["a1"])).map
        (fun s2 => listSetEqB s2.hideList stateParentChild.hideList) = .ok false := by
  rfl

/-- C7 counterexample: after a successful move of `src` (which a local
branch head still points at) the provenance entries are written and the
scan marks `src` moved, yet `src` is still included in the tip set used for
the ancestry range query — refuting the claim that the moved source commit
is excluded from the tip set. -/
theorem c7_counterexample :
    (move_commits_recursive repoO treeMove 400 5 stateMove "src").map
        (fun s2 => (keptTipsE repoO 400 s2).map (fun tips => decide ("src" ∈ tips))) =
      .ok (.ok true) := by
  rfl

/-- C9 counterexample: the commit `lab` of `stateLabeled` already carries a
label trailer, is visible and outside trunk, yet the upstream attach
operation does not fail — it amends the commit — refuting the claim that
the operation errors on every already-labeled target before amending. -/
theorem c9_counterexample :
    (findCommit stateLabeled "lab").map (fun c => get_labels c.message) =
        some ["mine-1"] ∧
      (add_upstream repoO 400 stateLabeled "origin/feat" "lab").isOk = true := by
  constructor
  · rfl
  · rfl

/-- C10: when the currently checked-out commit's sha has no entry in the
tree's `amend_source_map`, or the transitive amend chain yields no visible
children, the fixup operation performs no checkout, no cherry-pick and no
hide-list or reflog mutation — it reports the situation and returns with
every part of the repository state exactly as it was. -/
theorem c10_fixup_noop (r : HeadyRepo) (curTime : Int) (s : GitState)
    (hhead : ∃ hc, findCommit s s.headSha = some hc)
    (hok : (build_tree r curTime s).isOk = true)
    (hcond : ∀ t, build_tree r curTime s = .ok t →
      alistGet t.amend_source_map s.headSha = none ∨
        ∃ src, alistGet t.amend_source_map s.headSha = some src ∧
          collectAmendChainChildren t (t.amend_source_map.length + 1) src [] = []) :
    fixup_commit r curTime s = .ok s := by
  cases hbt : build_tree r curTime s with
  | error e => rw [hbt] at hok; simp [Except.isOk, Except.toBool] at hok
  | ok t =>
    unfold fixup_commit
    rw [hbt, bindE_ok]
    obtain ⟨hc, hfc⟩ := hhead
    rw [hfc]
    rcases hcond t hbt with h | ⟨src, hsrc, hchain⟩
    · rw [h]
    · rw [hsrc]
      simp only [hchain, if_pos]

/-- Witness for C10: on `stateA` the checked-out commit `a0` has no amend
history, and fixup returns the state unchanged. -/
theorem c10_fixup_noop_witness : fixup_commit repoO 400 stateA = .ok stateA :=
  c10_fixup_noop repoO 400 stateA ⟨_, rfl⟩ rfl
    (fun t ht => by
      have hval : build_tree repoO 400 stateA = .ok treeA := rfl
      rw [hval] at ht
      have h := (Except.ok.inj ht).symm
      subst h
      exact Or.inl rfl)

/-- C9 (amended): the upstream attach operation verifies its target is not
in trunk and is visible in the current tree, failing with an error — before
amending anything — when either verification fails; it performs no
already-labeled check, so a visible, non-trunk target that already carries
a label trailer is amended normally (shown for a childless target on a
clean working tree). -/
theorem c9_add_upstream_guards (r : HeadyRepo) (curTime : Int) (s : GitState)
    (upstreamRef rev : String) (t : HeadyTree) (c : Commit)
    (hbt : build_tree r curTime s = .ok t)
    (hres : resolveCommit s rev = some c) :
    (isInTrunkE r s rev = .ok true →
        add_upstream r curTime s upstreamRef rev =
          .error "can not add upstream: it is in trunk") ∧
      (isInTrunkE r s rev = .ok false →
        t.commit_nodes.any (fun p => p.1 = c.hexsha) = false →
        add_upstream r curTime s upstreamRef rev =
          .error "can not add upstream: it is not visible in the tree") ∧
      (isInTrunkE r s rev = .ok false →
        t.commit_nodes.any (fun p => p.1 = c.hexsha) = true →
        alistGetD t.children c.hexsha [] = [] →
        s.isDirty = false →
        ∀ rn br, splitUpstreamRef upstreamRef = some (rn, br) → rn ∈ s.remotes →
          (add_upstream r curTime s upstreamRef rev).isOk = true) := by
  refine ⟨?_, ?_, ?_⟩
  · intro htr
    unfold add_upstream
    rw [hbt, bindE_ok, hres]
    simp only [Option.elim]
    rw [bindE_ok, htr, bindE_ok]
    simp
  · intro htr hvis
    unfold add_upstream
    rw [hbt, bindE_ok, hres]
    simp only [Option.elim]
    rw [bindE_ok, htr, bindE_ok]
    simp [hvis]
  · intro htr hvis hch hdirty rn br hsplit hrn
    unfold add_upstream
    rw [hbt, bindE_ok, hres]
    simp only [Option.elim]
    rw [bindE_ok, htr, bindE_ok]
    simp only [Bool.false_eq_true, if_false, hvis, not_true, if_neg]
    rw [hsplit]
    simp only [if_neg (by simp [hrn] : ¬ (rn, br).1 ∉ s.remotes)]
    unfold visit_commit
    rw [if_neg (by simp [hdirty])]
    rw [bindE_ok]
    unfold amendCurrentCommit
    have hfc : findCommit s c.hexsha = some c := resolveCommit_findCommit s rev c hres
    simp only []
    rw [show findCommit
        { s with
            headSha := c.hexsha
            reflog := s.reflog ++ [⟨s.headSha, c.hexsha, "heady visit:" ++ c.hexsha, curTime⟩] }
        c.hexsha = some c from hfc]
    unfold moveChildrenToHead
    rw [hch]
    show (Except.bind (foldlME _ _ []) _).isOk = true
    rw [show ∀ (st : GitState) (f : GitState → String → Except String GitState),
        foldlME f st [] = .ok st from fun _ _ => rfl]
    rw [show ∀ (a : GitState) (f : GitState → Except String GitState),
        Except.bind (Except.ok a) f = f a from fun _ _ => rfl]
    simp [hdirty, Except.isOk, Except.toBool]

/-- Witness for C9: on `stateLabeled` the trunk commit `t0` is rejected by
the trunk guard before any mutation. -/
theorem c9_add_upstream_guards_witness :
    add_upstream repoO 400 stateLabeled "origin/feat" "t0" =
      .error "can not add upstream: it is in trunk" :=
  (c9_add_upstream_guards repoO 400 stateLabeled "origin/feat" "t0" treeLabeled
      ⟨"t0", ["p0"], "Trunk commit", 200⟩ rfl rfl).1 rfl

theorem scanStepAmend_tipShas (item : RefLogEntry) (st : ScanState) :
    (scanStepAmend item st).tipShas = st.tipShas := by
  unfold scanStepAmend
  split <;> rfl

theorem scanStepAmend_movedShas (item : RefLogEntry) (st : ScanState) :
    (scanStepAmend item st).movedShas = st.movedShas := by
  unfold scanStepAmend
  split <;> rfl

theorem scanStepMove_tipShas (item : RefLogEntry) (st : ScanState) :
    (scanStepMove item st).tipShas = st.tipShas := by
  unfold scanStepMove
  split <;> rfl

theorem scanStepMove_movedShas_mono (item : RefLogEntry) (st : ScanState) (x : String)
    (h : x ∈ st.movedShas) : x ∈ (scanStepMove item st).movedShas := by
  unfold scanStepMove
  split
  · exact mem_insertSet_of_mem _ h
  · exact h

theorem scanStepTip_movedShas (hide : List String) (item : RefLogEntry) (st : ScanState) :
    (scanStepTip hide item st).movedShas = st.movedShas := by
  unfold scanStepTip
  split <;> rfl

theorem scanStepTip_mem (hide : List String) (item : RefLogEntry) (st : ScanState)
    (x : String) (hx : x ∈ (scanStepTip hide item st).tipShas) :
    x ∈ st.tipShas ∨
      (x = item.newhexsha ∧ x ∉ hide ∧ x ∉ st.amendedShas ∧ x ∉ st.movedShas) := by
  unfold scanStepTip at hx
  split at hx
  · rename_i hcond
    rcases (mem_insertSet.mp hx) with h | h
    · exact Or.inl h
    · subst h
      exact Or.inr ⟨rfl, hcond.1, hcond.2.1, hcond.2.2⟩
  · exact Or.inl hx

theorem scanReflog_tip_not_hidden (hide : List String) (curTime : Int) (sha : String)
    (hsha : sha ∈ hide) :
    ∀ (entries : List RefLogEntry) (st : ScanState), sha ∉ st.tipShas →
      sha ∉ (scanReflog hide curTime entries st).tipShas := by
  intro entries
  induction entries with
  | nil => intro st h; exact h
  | cons item rest ih =>
    intro st h
    unfold scanReflog
    have htip : sha ∉ (scanStepMove item (scanStepAmend item st)).tipShas := by
      rw [scanStepMove_tipShas, scanStepAmend_tipShas]
      exact h
    split
    · exact htip
    · apply ih
      intro hc
      rcases scanStepTip_mem hide item _ sha hc with hc | hc
      · exact htip hc
      · exact hc.2.1 hsha

theorem scanReflog_moved_mono (hide : List String) (curTime : Int) (x : String) :
    ∀ (entries : List RefLogEntry) (st : ScanState), x ∈ st.movedShas →
      x ∈ (scanReflog hide curTime entries st).movedShas := by
  intro entries
  induction entries with
  | nil => intro st h; exact h
  | cons item rest ih =>
    intro st h
    unfold scanReflog
    have hm : x ∈ (scanStepMove item (scanStepAmend item st)).movedShas := by
      apply scanStepMove_movedShas_mono
      rw [scanStepAmend_movedShas]
      exact h
    split
    · exact hm
    · apply ih
      rw [scanStepTip_movedShas]
      exact hm

theorem scanReflog_tip_not_moved (hide : List String) (curTime : Int) (sha : String) :
    ∀ (entries : List RefLogEntry) (st : ScanState), sha ∈ st.movedShas →
      sha ∉ st.tipShas → sha ∉ (scanReflog hide curTime entries st).tipShas := by
  intro entries
  induction entries with
  | nil => intro st _ h; exact h
  | cons item rest ih =>
    intro st hm h
    unfold scanReflog
    have hm2 : sha ∈ (scanStepMove item (scanStepAmend item st)).movedShas := by
      apply scanStepMove_movedShas_mono
      rw [scanStepAmend_movedShas]
      exact hm
    have htip : sha ∉ (scanStepMove item (scanStepAmend item st)).tipShas := by
      rw [scanStepMove_tipShas, scanStepAmend_tipShas]
      exact h
    split
    · exact htip
    · apply ih
      · rw [scanStepTip_movedShas]
        exact hm2
      · intro hc
        rcases scanStepTip_mem hide item _ sha hc with hc | hc
        · exact htip hc
        · exact hc.2.2.2 hm2

theorem mem_headsFold (heads : List Branch) (x : String) :
    ∀ (init : List String),
      x ∈ heads.foldl (fun tips b => insertSet tips b.hexsha) init ↔
        x ∈ init ∨ ∃ b ∈ heads, b.hexsha = x := by
  induction heads with
  | nil => intro init; simp
  | cons b heads ih =>
    intro init
    rw [List.foldl_cons, ih, mem_insertSet]
    constructor
    · rintro (⟨h | h⟩ | ⟨b', hb', hbx⟩)
      · exact Or.inl h
      · exact Or.inr ⟨b, List.mem_cons_self b heads, h.symm⟩
      · exact Or.inr ⟨b', List.mem_cons_of_mem b hb', hbx⟩
    · rintro (h | ⟨b', hb', hbx⟩)
      · exact Or.inl (Or.inl h)
      · rcases List.mem_cons.mp hb' with rfl | hb''
        · exact Or.inl (Or.inr hbx.symm)
        · exact Or.inr ⟨b', hb'', hbx⟩

theorem mem_allTips (curTime : Int) (s : GitState) (x : String) :
    x ∈ allTips curTime s ↔
      x ∈ (scanOf curTime s).tipShas ∨ ∃ b ∈ s.heads, b.hexsha = x := by
  unfold allTips
  exact mem_headsFold s.heads x _

theorem keptTips_subset_allTips (curTime : Int) (s : GitState) (trunkShas : List String)
    (x : String) (hx : x ∈ keptTipsOf curTime s trunkShas) : x ∈ allTips curTime s := by
  unfold keptTipsOf at hx
  exact List.mem_of_mem_filter hx

theorem make_node_is_hidden (r : HeadyRepo) (s : GitState)
    (hide am mv : List String) (sb visUp : List (String × List String))
    (c : Commit) (it : Bool) :
    (make_node r s hide am mv sb visUp c it).2.is_hidden = hiddenFlagB hide am mv c.hexsha :=
  rfl

theorem make_node_commit (r : HeadyRepo) (s : GitState)
    (hide am mv : List String) (sb visUp : List (String × List String))
    (c : Commit) (it : Bool) :
    (make_node r s hide am mv sb visUp c it).2.commit = c :=
  rfl

theorem alistGet_mem {α : Type} (m : List (String × α)) (k : String) (v : α)
    (h : alistGet m k = some v) : (k, v) ∈ m := by
  unfold alistGet at h
  cases hf : m.find? (fun p => p.1 = k) with
  | none => rw [hf] at h; simp at h
  | some p =>
    rw [hf] at h
    simp at h
    have h1 := List.find?_some hf
    have h2 := List.mem_of_find?_eq_some hf
    simp at h1
    have : p = (k, v) := by
      obtain ⟨p1, p2⟩ := p
      simp at h1 h ⊢
      exact ⟨h1, h⟩
    rw [this] at h2
    exact h2

theorem alistSet_mem {α : Type} (m : List (String × α)) (k : String) (v : α) :
    ∀ p ∈ alistSet m k v, p = (k, v) ∨ p ∈ m := by
  induction m with
  | nil => intro p hp; simp [alistSet] at hp; exact Or.inl hp
  | cons q m ih =>
    obtain ⟨k0, v0⟩ := q
    intro p hp
    unfold alistSet at hp
    split at hp
    · rename_i h0
      subst h0
      rcases List.mem_cons.mp hp with rfl | hp'
      · exact Or.inl rfl
      · exact Or.inr (List.mem_cons_of_mem _ hp')
    · rcases List.mem_cons.mp hp with rfl | hp'
      · exact Or.inr (List.mem_cons_self _ _)
      · rcases ih p hp' with h | h
        · exact Or.inl h
        · exact Or.inr (List.mem_cons_of_mem _ h)

theorem buildCommitNodes_inv (r : HeadyRepo) (s : GitState)
    (hide am mv : List String) (sb : List (String × List String))
    (P : String × CommitNode → Prop) :
    ∀ (bcs : List Commit),
      (∀ (visUp : List (String × List String)), ∀ bc ∈ bcs,
        P (bc.hexsha, (make_node r s hide am mv sb visUp bc false).2)) →
      ∀ (vu : List (String × List String))
        (cns : List (String × CommitNode)), (∀ p ∈ cns, P p) →
        ∀ p ∈ (bcs.foldl
          (fun acc bc =>
            let res := make_node r s hide am mv sb acc.1 bc false
            (res.1, acc.2 ++ [(bc.hexsha, res.2)]))
          (vu, cns)).2, P p := by
  intro bcs
  induction bcs with
  | nil => intro _ vu cns hcns p hp; exact hcns p hp
  | cons bc bcs ih =>
    intro hmk vu cns hcns p hp
    rw [List.foldl_cons] at hp
    refine ih (fun visUp d hd => hmk visUp d (List.mem_cons_of_mem _ hd)) _ _ ?_ p hp
    intro q hq
    rcases List.mem_append.mp hq with hq | hq
    · exact hcns q hq
    · rw [List.mem_singleton.mp hq]
      exact hmk vu bc (List.mem_cons_self _ _)

theorem buildCommitNodes_inv_apply (r : HeadyRepo) (s : GitState)
    (hide am mv : List String) (sb : List (String × List String))
    (P : String × CommitNode → Prop) (bcs : List Commit)
    (hmk : ∀ (visUp : List (String × List String)), ∀ bc ∈ bcs,
      P (bc.hexsha, (make_node r s hide am mv sb visUp bc false).2)) :
    ∀ p ∈ (buildCommitNodes r s hide am mv sb bcs).2, P p := by
  unfold buildCommitNodes
  exact buildCommitNodes_inv r s hide am mv sb P bcs hmk [] [] (by simp)

theorem buildTrunkNodes_inv (r : HeadyRepo) (s : GitState)
    (hide am mv : List String) (sb : List (String × List String))
    (P : String × CommitNode → Prop) :
    ∀ (tcs : List Commit),
      (∀ (visUp : List (String × List String)), ∀ tc ∈ tcs,
        P (tc.hexsha, (make_node r s hide am mv sb visUp tc true).2)) →
      ∀ (vu : List (String × List String))
        (tns : List (String × CommitNode)), (∀ p ∈ tns, P p) →
        ∀ p ∈ (tcs.foldl
          (fun acc tc =>
            let res := make_node r s hide am mv sb acc.1 tc true
            (res.1, alistSet acc.2 tc.hexsha res.2))
          (vu, tns)).2, P p := by
  intro tcs
  induction tcs with
  | nil => intro _ vu tns htns p hp; exact htns p hp
  | cons tc tcs ih =>
    intro hmk vu tns htns p hp
    rw [List.foldl_cons] at hp
    refine ih (fun visUp d hd => hmk visUp d (List.mem_cons_of_mem _ hd)) _ _ ?_ p hp
    intro q hq
    rcases alistSet_mem _ _ _ q hq with h | h
    · rw [h]
      exact hmk vu tc (List.mem_cons_self _ _)
    · exact htns q h

theorem buildTrunkNodes_inv_apply (r : HeadyRepo) (s : GitState)
    (hide am mv : List String) (sb : List (String × List String))
    (P : String × CommitNode → Prop) (tcs : List Commit)
    (hmk : ∀ (visUp : List (String × List String)), ∀ tc ∈ tcs,
      P (tc.hexsha, (make_node r s hide am mv sb visUp tc true).2))
    (visUp : List (String × List String)) :
    ∀ p ∈ (buildTrunkNodes r s hide am mv sb visUp tcs).2, P p := by
  unfold buildTrunkNodes
  exact buildTrunkNodes_inv r s hide am mv sb P tcs hmk visUp [] (by simp)

theorem linkNodes_trunk_inv (r : HeadyRepo) (s : GitState)
    (hide am mv : List String) (sb : List (String × List String))
    (commitNodes : List (String × CommitNode)) (P : String × CommitNode → Prop)
    (hkeep : ∀ (visUp : List (String × List String)) (sha : String) (node : CommitNode)
      (parentSha : String) (parentCommit : Commit) (rest2 : List String),
      (sha, node) ∈ commitNodes → node.commit.parents = parentSha :: rest2 →
      commitNodes.any (fun p => p.1 = parentSha) = false →
      findCommit s parentSha = some parentCommit →
      P (parentSha, (make_node r s hide am mv sb visUp parentCommit true).2)) :
    ∀ (worklist : List (String × CommitNode)) (visUp : List (String × List String))
      (trunkNodes : List (String × CommitNode)) (children : List (String × List String))
      (out : List (String × List String) × List (String × CommitNode) ×
        List (String × List String)),
      (∀ q ∈ worklist, q ∈ commitNodes) →
      linkNodes r s hide am mv sb commitNodes visUp trunkNodes worklist children = .ok out →
      (∀ p ∈ trunkNodes, P p) → ∀ p ∈ out.2.1, P p := by
  intro worklist
  induction worklist with
  | nil =>
    intro visUp trunkNodes children out _ hlink htn p hp
    unfold linkNodes at hlink
    cases hlink
    exact htn p hp
  | cons q worklist ih =>
    obtain ⟨sha, node⟩ := q
    intro visUp trunkNodes children out hsub hlink htn p hp
    unfold linkNodes at hlink
    cases hpar : node.commit.parents with
    | nil => rw [hpar] at hlink; cases hlink
    | cons parentSha rest2 =>
      rw [hpar] at hlink
      simp only [] at hlink
      by_cases hin : commitNodes.any (fun p => p.1 = parentSha) = true
      · rw [if_pos hin] at hlink
        exact ih _ _ _ _ (fun q hq => hsub q (List.mem_cons_of_mem _ hq)) hlink htn p hp
      · rw [if_neg hin] at hlink
        split at hlink
        · exact ih _ _ _ _ (fun q hq => hsub q (List.mem_cons_of_mem _ hq)) hlink htn p hp
        · cases hfc : findCommit s parentSha with
          | none => rw [hfc] at hlink; cases hlink
          | some parentCommit =>
            rw [hfc] at hlink
            refine ih _ _ _ _ (fun q hq => hsub q (List.mem_cons_of_mem _ hq)) hlink ?_ p hp
            intro q hq
            rcases alistSet_mem _ _ _ q hq with h | h
            · rw [h]
              exact hkeep visUp sha node parentSha parentCommit rest2
                (hsub _ (List.mem_cons_self _ _)) hpar (Bool.eq_false_iff.mpr hin) hfc
            · exact htn q h

theorem mem_insertDesc (x y : CommitNode) (l : List CommitNode) :
    y ∈ insertDesc x l ↔ y = x ∨ y ∈ l := by
  induction l with
  | nil => simp [insertDesc]
  | cons z l ih =>
    unfold insertDesc
    split
    · rw [List.mem_cons, ih]
      constructor
      · rintro (rfl | h | h)
        · exact Or.inr (List.mem_cons_self _ _)
        · exact Or.inl h
        · exact Or.inr (List.mem_cons_of_mem _ h)
      · rintro (rfl | h)
        · exact Or.inr (Or.inl rfl)
        · rcases List.mem_cons.mp h with rfl | h'
          · exact Or.inl rfl
          · exact Or.inr (Or.inr h')
    · rw [List.mem_cons]

theorem mem_sortDesc (l : List CommitNode) (y : CommitNode) :
    y ∈ sortDesc l ↔ y ∈ l := by
  unfold sortDesc
  suffices h : ∀ (acc : List CommitNode),
      y ∈ l.foldl (fun acc x => insertDesc x acc) acc ↔ y ∈ acc ∨ y ∈ l by
    rw [h []]
    simp
  induction l with
  | nil => intro acc; simp
  | cons x l ih =>
    intro acc
    rw [List.foldl_cons, ih, mem_insertDesc]
    constructor
    · rintro ((rfl | h) | h)
      · exact Or.inr (List.mem_cons_self _ _)
      · exact Or.inl h
      · exact Or.inr (List.mem_cons_of_mem _ h)
    · rintro (h | h)
      · exact Or.inl (Or.inr h)
      · rcases List.mem_cons.mp h with rfl | h'
        · exact Or.inl (Or.inl rfl)
        · exact Or.inr h'

theorem ebind_ok {α β : Type} (a : α) (f : α → Except String β) :
    Except.bind (Except.ok a) f = f a := rfl

theorem ebind_err {α β : Type} (e : String) (f : α → Except String β) :
    Except.bind (Except.error e) f = Except.error e := rfl

theorem build_tree_ok_elim (r : HeadyRepo) (curTime : Int) (s : GitState) (t : HeadyTree)
    (hbt : build_tree r curTime s = .ok t) :
    ∃ (trunkShas : List String) (branchCommits trunkCommits : List Commit)
      (linked : List (String × List String) × List (String × CommitNode) ×
        List (String × List String))
      (oldest : CommitNode) (merged : List (String × List String)),
      trunkShasOf r s = .ok trunkShas ∧
      fetchCommits s (branchShasOf curTime s trunkShas) = .ok branchCommits ∧
      fetchCommits s trunkShas = .ok trunkCommits ∧
      linkedOf r curTime s trunkShas branchCommits trunkCommits = .ok linked ∧
      (sortDesc (linked.2.1.map (fun p => p.2))).getLast? = some oldest ∧
      collect_merged_upstreams r s oldest.commit = .ok merged ∧
      t = ⟨(cnOf r curTime s trunkShas branchCommits).2.map
            (fun p => (p.1, annotateMerged merged p.2)),
          sortDesc (linked.2.1.map (fun p => p.2)), linked.2.2,
          (scanOf curTime s).amendSourceMap, linked.1⟩ := by
  unfold build_tree at hbt
  cases h1 : trunkShasOf r s with
  | error e => rw [h1, ebind_err] at hbt; cases hbt
  | ok trunkShas =>
    rw [h1, ebind_ok] at hbt
    cases h2 : fetchCommits s (branchShasOf curTime s trunkShas) with
    | error e => rw [h2, ebind_err] at hbt; cases hbt
    | ok branchCommits =>
      rw [h2, ebind_ok] at hbt
      cases h3 : fetchCommits s trunkShas with
      | error e => rw [h3, ebind_err] at hbt; cases hbt
      | ok trunkCommits =>
        rw [h3, ebind_ok] at hbt
        cases h4 : linkedOf r curTime s trunkShas branchCommits trunkCommits with
        | error e => rw [h4, ebind_err] at hbt; cases hbt
        | ok linked =>
          rw [h4, ebind_ok] at hbt
          cases h5 : (sortDesc (linked.2.1.map (fun p => p.2))).getLast? with
          | none => rw [h5] at hbt; simp only [] at hbt; cases hbt
          | some oldest =>
            rw [h5] at hbt
            simp only [] at hbt
            cases h6 : collect_merged_upstreams r s oldest.commit with
            | error e => rw [h6, ebind_err] at hbt; cases hbt
            | ok merged =>
              rw [h6, ebind_ok] at hbt
              exact ⟨trunkShas, branchCommits, trunkCommits, linked, oldest, merged,
                by simp only [h1], by simp only [h2], by simp only [h3],
                by simp only [h4], by simp only [h5], by simp only [h6],
                (Except.ok.inj hbt).symm⟩

theorem annotateMerged_commit (merged : List (String × List String)) (n : CommitNode) :
    (annotateMerged merged n).commit = n.commit := rfl

theorem annotateMerged_is_hidden (merged : List (String × List String)) (n : CommitNode) :
    (annotateMerged merged n).is_hidden = n.is_hidden := rfl

theorem build_tree_hidden_flags (r : HeadyRepo) (curTime : Int) (s : GitState)
    (t : HeadyTree) (hbt : build_tree r curTime s = .ok t) :
    (∀ sha node, alistGet t.commit_nodes sha = some node →
        node.commit.hexsha = sha ∧
          node.is_hidden = hiddenFlagB s.hideList (scanOf curTime s).amendedShas
            (scanOf curTime s).movedShas sha) ∧
      ∀ node ∈ t.trunk_nodes,
        node.is_hidden = hiddenFlagB s.hideList (scanOf curTime s).amendedShas
          (scanOf curTime s).movedShas node.commit.hexsha := by
  obtain ⟨ts, bcs, tcs, linked, oldest, merged, h1, h2, h3, h4, h5, h6, ht⟩ :=
    build_tree_ok_elim r curTime s t hbt
  have hcn : ∀ p ∈ (cnOf r curTime s ts bcs).2,
      p.2.commit.hexsha = p.1 ∧
        p.2.is_hidden = hiddenFlagB s.hideList (scanOf curTime s).amendedShas
          (scanOf curTime s).movedShas p.1 := by
    unfold cnOf
    exact buildCommitNodes_inv_apply r s s.hideList (scanOf curTime s).amendedShas
      (scanOf curTime s).movedShas (specialBranchesOf r s ts)
      (fun q => q.2.commit.hexsha = q.1 ∧
        q.2.is_hidden = hiddenFlagB s.hideList (scanOf curTime s).amendedShas
          (scanOf curTime s).movedShas q.1)
      bcs (fun _visUp _bc _ => ⟨rfl, rfl⟩)
  subst ht
  constructor
  · intro sha node hget
    have hmem := alistGet_mem _ _ _ hget
    rw [List.mem_map] at hmem
    obtain ⟨p, hp, hpe⟩ := hmem
    have hinv := hcn p hp
    have h1e : p.1 = sha := congrArg Prod.fst hpe
    have h2e : annotateMerged merged p.2 = node := congrArg Prod.snd hpe
    rw [← h2e, ← h1e]
    rw [annotateMerged_commit, annotateMerged_is_hidden]
    exact hinv
  · intro node hnode
    simp only [] at hnode
    rw [mem_sortDesc, List.mem_map] at hnode
    obtain ⟨p, hp, hpe⟩ := hnode
    have htn0 : ∀ q ∈ (tnOf r curTime s ts bcs tcs).2,
        q.2.commit.hexsha = q.1 ∧
          q.2.is_hidden = hiddenFlagB s.hideList (scanOf curTime s).amendedShas
            (scanOf curTime s).movedShas q.1 := by
      unfold tnOf
      exact buildTrunkNodes_inv_apply r s s.hideList (scanOf curTime s).amendedShas
        (scanOf curTime s).movedShas (specialBranchesOf r s ts)
        (fun q => q.2.commit.hexsha = q.1 ∧
          q.2.is_hidden = hiddenFlagB s.hideList (scanOf curTime s).amendedShas
            (scanOf curTime s).movedShas q.1)
        tcs (fun _visUp _tc _ => ⟨rfl, rfl⟩) _
    have hlink : ∀ q ∈ linked.2.1,
        q.2.commit.hexsha = q.1 ∧
          q.2.is_hidden = hiddenFlagB s.hideList (scanOf curTime s).amendedShas
            (scanOf curTime s).movedShas q.1 := by
      unfold linkedOf at h4
      refine linkNodes_trunk_inv r s s.hideList (scanOf curTime s).amendedShas
        (scanOf curTime s).movedShas (specialBranchesOf r s ts)
        (cnOf r curTime s ts bcs).2
        (fun q => q.2.commit.hexsha = q.1 ∧
          q.2.is_hidden = hiddenFlagB s.hideList (scanOf curTime s).amendedShas
            (scanOf curTime s).movedShas q.1)
        ?_ (cnOf r curTime s ts bcs).2 _ _ [] linked (fun q hq => hq) h4 htn0
      intro visUp sha2 node2 parentSha parentCommit rest2 _hmem _hpar _hany hfc
      have hx : parentCommit.hexsha = parentSha :=
        (findCommit_hexsha s parentSha parentCommit hfc).1
      exact ⟨hx, congrArg (hiddenFlagB s.hideList (scanOf curTime s).amendedShas
        (scanOf curTime s).movedShas) hx⟩
    obtain ⟨hh, hf⟩ := hlink p hp
    have hpe2 : p.2 = node := hpe
    rw [← hpe2, hh]
    exact hf

theorem hiddenFlagB_of_hide (hide am mv : List String) (sha : String)
    (h : sha ∈ hide) : hiddenFlagB hide am mv sha = true := by
  simp [hiddenFlagB, h]

theorem hiddenFlagB_of_moved (hide am mv : List String) (sha : String)
    (h : sha ∈ mv) : hiddenFlagB hide am mv sha = true := by
  simp [hiddenFlagB, h]

/-- C2 (amended): a sha on the persisted hide-list when `build_tree` runs is
never added to the tip set by the reflog walk, and if additionally no local
branch head points at it, it is absent from the tip set used for the
ancestry range query; any node for it in the resulting tree (stacked or
trunk) has `is_hidden` true.  (Local branch heads are added to the tip set
unconditionally, which is what the counterexample exploits.) -/
theorem c2_hide_list_invariant (r : HeadyRepo) (curTime : Int) (s : GitState)
    (sha : String) (hsha : sha ∈ s.hideList) :
    sha ∉ (scanOf curTime s).tipShas ∧
      ((∀ b ∈ s.heads, b.hexsha ≠ sha) →
        ∀ trunkShas, sha ∉ keptTipsOf curTime s trunkShas) ∧
      ∀ t, build_tree r curTime s = .ok t →
        (∀ node, alistGet t.commit_nodes sha = some node → node.is_hidden = true) ∧
        ∀ node ∈ t.trunk_nodes, node.commit.hexsha = sha → node.is_hidden = true := by
  have hscan : sha ∉ (scanOf curTime s).tipShas := by
    unfold scanOf
    apply scanReflog_tip_not_hidden s.hideList curTime sha hsha
    simp [initScan]
  refine ⟨hscan, ?_, ?_⟩
  · intro hheads trunkShas hkept
    have hall := keptTips_subset_allTips curTime s trunkShas sha hkept
    rcases (mem_allTips curTime s sha).mp hall with h | ⟨b, hb, hbx⟩
    · exact hscan h
    · exact hheads b hb hbx
  · intro t hbt
    obtain ⟨hcn, htn⟩ := build_tree_hidden_flags r curTime s t hbt
    constructor
    · intro node hget
      rw [(hcn sha node hget).2]
      exact hiddenFlagB_of_hide _ _ _ _ hsha
    · intro node hnode hx
      rw [htn node hnode, hx]
      exact hiddenFlagB_of_hide _ _ _ _ hsha

/-- Witness for C2 at `stateHiddenBranch`: the hidden sha `h1` is not a
reflog-derived tip. -/
theorem c2_hide_list_invariant_witness :
    "h1" ∉ (scanOf 400 stateHiddenBranch).tipShas :=
  (c2_hide_list_invariant repoO 400 stateHiddenBranch "h1" (by decide)).1

theorem startsWithPy_move_self (x : String) :
    startsWithPy ("heady move: " ++ x) "heady move:" = true := by
  cases x with
  | mk d => rfl

theorem startsWithPy_move_not_amend (x : String) :
    startsWithPy ("heady move: " ++ x) "commit (amend):" = false := by
  cases x with
  | mk d => rfl

/-- C7 (amended): after every successful cherry-pick of a source commit
producing a new commit, the restack engine's provenance recording appends
two consecutive reflog entries — one pointing head back at the source, then
one pointing it at the new commit whose message is the literal token
`heady move:` followed by the source sha — and a subsequent `build_tree`
reflog scan records that entry's old sha (the source) as superseded-by-move,
never adds it as a reflog-derived tip, and marks any node for it hidden;
the source is excluded from the full tip set whenever no local branch head
still points at it (a branch head keeps it a tip, see the counterexample). -/
theorem c7_move_provenance (s : GitState) (sourceSha newSha : String)
    (curTime tMove : Int) (r : HeadyRepo) :
    (recordMoveProvenance s sourceSha newSha tMove).reflog =
        s.reflog ++
          [⟨s.headSha, sourceSha, "", tMove⟩,
            ⟨sourceSha, newSha, "heady move: " ++ sourceSha, tMove⟩] ∧
      (recordMoveProvenance s sourceSha newSha tMove).headSha = newSha ∧
      sourceSha ∈ (scanOf curTime (recordMoveProvenance s sourceSha newSha tMove)).movedShas ∧
      sourceSha ∉ (scanOf curTime (recordMoveProvenance s sourceSha newSha tMove)).tipShas ∧
      ((∀ b ∈ s.heads, b.hexsha ≠ sourceSha) →
        ∀ trunkShas, sourceSha ∉
          keptTipsOf curTime (recordMoveProvenance s sourceSha newSha tMove) trunkShas) ∧
      ∀ t, build_tree r curTime (recordMoveProvenance s sourceSha newSha tMove) = .ok t →
        (∀ node, alistGet t.commit_nodes sourceSha = some node → node.is_hidden = true) ∧
        ∀ node ∈ t.trunk_nodes, node.commit.hexsha = sourceSha → node.is_hidden = true := by
  set s2 := recordMoveProvenance s sourceSha newSha tMove with hs2
  have hreflog : s2.reflog =
      s.reflog ++
        [⟨s.headSha, sourceSha, "", tMove⟩,
          ⟨sourceSha, newSha, "heady move: " ++ sourceSha, tMove⟩] := rfl
  have hrev : s2.reflog.reverse =
      (⟨sourceSha, newSha, "heady move: " ++ sourceSha, tMove⟩ : RefLogEntry) ::
        (⟨s.headSha, sourceSha, "", tMove⟩ : RefLogEntry) :: s.reflog.reverse := by
    rw [hreflog]
    simp

  -- the state after the amend and move steps of the first scanned entry
  have hstep :
      scanStepMove ⟨sourceSha, newSha, "heady move: " ++ sourceSha, tMove⟩
          (scanStepAmend ⟨sourceSha, newSha, "heady move: " ++ sourceSha, tMove⟩ initScan) =
        { initScan with
            movedShas := [sourceSha]
            moveSourceMap := [(newSha, sourceSha)] } := by
    unfold scanStepAmend
    rw [if_neg (by rw [startsWithPy_move_not_amend]; simp)]
    unfold scanStepMove
    rw [if_pos (by rw [startsWithPy_move_self])]
    rfl

  have hmoved1 : sourceSha ∈
      (scanStepMove ⟨sourceSha, newSha, "heady move: " ++ sourceSha, tMove⟩
        (scanStepAmend ⟨sourceSha, newSha, "heady move: " ++ sourceSha, tMove⟩
          initScan)).movedShas := by
    rw [hstep]
    simp

  have htip1 : sourceSha ∉
      (scanStepMove ⟨sourceSha, newSha, "heady move: " ++ sourceSha, tMove⟩
        (scanStepAmend ⟨sourceSha, newSha, "heady move: " ++ sourceSha, tMove⟩
          initScan)).tipShas := by
    rw [hstep]
    simp [initScan]

  have hscan2 : sourceSha ∈ (scanOf curTime s2).movedShas ∧
      sourceSha ∉ (scanOf curTime s2).tipShas := by
    unfold scanOf
    rw [show s2.hideList = s.hideList from rfl, hrev]
    unfold scanReflog
    split
    · exact ⟨hmoved1, htip1⟩
    · constructor
      · apply scanReflog_moved_mono
        rw [scanStepTip_movedShas]
        exact hmoved1
      · apply scanReflog_tip_not_moved
        · rw [scanStepTip_movedShas]
          exact hmoved1
        · intro hc
          rcases scanStepTip_mem _ _ _ _ hc with hc | hc
          · exact htip1 hc
          · exact hc.2.2.2 hmoved1

  refine ⟨hreflog, rfl, hscan2.1, hscan2.2, ?_, ?_⟩
  · intro hheads trunkShas hkept
    have hall := keptTips_subset_allTips curTime s2 trunkShas sourceSha hkept
    rcases (mem_allTips curTime s2 sourceSha).mp hall with h | ⟨b, hb, hbx⟩
    · exact hscan2.2 h
    · exact hheads b (by exact hb) hbx
  · intro t hbt
    obtain ⟨hcn, htn⟩ := build_tree_hidden_flags r curTime s2 t hbt
    constructor
    · intro node hget
      rw [(hcn sourceSha node hget).2]
      exact hiddenFlagB_of_moved _ _ _ _ hscan2.1
    · intro node hnode hx
      rw [htn node hnode, hx]
      exact hiddenFlagB_of_moved _ _ _ _ hscan2.1

/-- Witness for C7 at `stateMove`: the moved source sha is recorded as
superseded-by-move and is not a reflog-derived tip of the new state. -/
theorem c7_move_provenance_witness :
    "src" ∈ (scanOf 400 (recordMoveProvenance stateMove "src" "new1" 400)).movedShas ∧
      "src" ∉ (scanOf 400 (recordMoveProvenance stateMove "src" "new1" 400)).tipShas :=
  ⟨(c7_move_provenance stateMove "src" "new1" 400 400 repoO).2.2.1,
    (c7_move_provenance stateMove "src" "new1" 400 400 repoO).2.2.2.1⟩

theorem collect_subtree_dest_sub (t : HeadyTree) :
    ∀ (fuel : Nat) (sha : String) (dest : List String) (x : String),
      x ∈ dest → x ∈ collect_subtree_shas t fuel dest sha := by
  intro fuel
  induction fuel with
  | zero => intro sha dest x hx; exact hx
  | succ fuel ih =>
    intro sha dest x hx
    unfold collect_subtree_shas
    split
    · exact hx
    · have hfold : ∀ (l : List String) (d : List String), x ∈ d →
          x ∈ l.foldl (collect_subtree_shas t fuel) d := by
        intro l
        induction l with
        | nil => intro d hd; exact hd
        | cons c l ihl =>
          intro d hd
          rw [List.foldl_cons]
          exact ihl _ (ih c d x hd)
      exact hfold _ _ (List.mem_append_left _ hx)

theorem collect_subtree_root_mem (t : HeadyTree) (fuel : Nat) (sha : String)
    (dest : List String) : sha ∈ collect_subtree_shas t (fuel + 1) dest sha := by
  unfold collect_subtree_shas
  split
  · assumption
  · have hfold : ∀ (l : List String) (d : List String), sha ∈ d →
        sha ∈ l.foldl (collect_subtree_shas t fuel) d := by
      intro l
      induction l with
      | nil => intro d hd; exact hd
      | cons c l ihl =>
        intro d hd
        rw [List.foldl_cons]
        exact ihl _ (collect_subtree_dest_sub t fuel c d sha hd)
    exact hfold _ _ (List.mem_append_right _ (List.mem_singleton.mpr rfl))

theorem listSetEqB_refl (l : List String) : listSetEqB l l = true := by
  rw [listSetEqB_true_iff]
  exact ⟨fun x h => h, fun x h => h⟩

/-- C4 (amended): running the hide operation on a set of guarded-resolvable
roots appends exactly the not-yet-hidden shas of their collected visible
subtrees; hence the persisted hide-list is unchanged as a set if and only if
every sha collected from the visible subtrees of the roots already lies on
the hide-list — membership of the roots themselves (the original claim's
premise) is not sufficient, as the counterexample shows. -/
theorem c4_hide_idempotent (r : HeadyRepo) (curTime : Int) (s : GitState)
    (revs rootShas : List String) (t : HeadyTree)
    (hroots : mapME (hideGuardedResolve r s) revs = .ok rootShas)
    (hbt : build_tree r curTime s = .ok t) :
    ∃ s', hide_subtrees r curTime s revs = .ok s' ∧
      s'.hideList = s.hideList ++
        (collectHideShas t rootShas).filter (fun sha => decide (sha ∉ s.hideList)) ∧
      (listSetEqB s'.hideList s.hideList = true ↔
        ∀ x ∈ collectHideShas t rootShas, x ∈ s.hideList) := by
  refine ⟨{ s with
      hideList := s.hideList ++
        (collectHideShas t rootShas).filter (fun sha => decide (sha ∉ s.hideList)) },
    ?_, rfl, ?_⟩
  · unfold hide_subtrees
    rw [hroots, bindE_ok, hbt, bindE_ok]
  · constructor
    · intro hset x hx
      rw [listSetEqB_true_iff] at hset
      by_cases hxh : x ∈ s.hideList
      · exact hxh
      · exact hset.1 x (List.mem_append_right _
          (List.mem_filter.mpr ⟨hx, by simpa using hxh⟩))
    · intro hall
      have hfil : (collectHideShas t rootShas).filter
          (fun sha => decide (sha ∉ s.hideList)) = [] := by
        rw [List.filter_eq_nil_iff]
        intro a ha
        simpa using hall a ha
      rw [hfil, List.append_nil]
      exact listSetEqB_refl _

/-- Witness for C4 at `stateAllHidden`: re-hiding `a1` when its whole
subtree is already hidden leaves the hide-list unchanged as a set. -/
theorem c4_hide_idempotent_witness :
    (hide_subtrees repoO 500 stateAllHidden ["a1"]).map
        (fun s1 => listSetEqB s1.hideList stateAllHidden.hideList) = .ok true := by
  obtain ⟨s', h1, _h2, h3⟩ :=
    c4_hide_idempotent repoO 500 stateAllHidden ["a1"] ["a1"] treeAllHidden rfl rfl
  rw [h1]
  show Except.ok (listSetEqB s'.hideList stateAllHidden.hideList) = Except.ok true
  rw [h3.mpr (by decide)]

theorem resolveRef_hideList (s : GitState) (l : List String) (ref : String) :
    resolveRef { s with hideList := l } ref = resolveRef s ref := rfl

theorem foldlME_nil {σ α : Type} (f : σ → α → Except String σ) (s : σ) :
    foldlME f s [] = .ok s := rfl

/-- C5 (amended): for a single guarded-resolvable sha that is visible in the
tree, absent from the persisted hide-list, and whose collected visible
subtree contains no sha that is neither the root itself nor already hidden,
performing hide then unhide of that sha restores the persisted hide-list to
exactly its original contents as a set.  (With an unhidden descendant in
the subtree the round trip leaves that descendant hidden, see the
counterexample.) -/
theorem c5_hide_unhide_inverse (r : HeadyRepo) (curTime : Int) (s : GitState)
    (rev sha : String) (t : HeadyTree)
    (hres : resolveRef s rev = some sha)
    (hguard : mapME (hideGuardedResolve r s) [rev] = .ok [sha])
    (hbt : build_tree r curTime s = .ok t)
    (hvis : t.commit_nodes.any (fun p => p.1 = sha) = true)
    (hnot : sha ∉ s.hideList)
    (hsub : ∀ x ∈ collect_subtree_shas t (t.commit_nodes.length + 1) [] sha,
      x = sha ∨ x ∈ s.hideList) :
    ((hide_subtrees r curTime s [rev]).bind (fun s1 => unhide_revs s1 [rev])).map
        (fun s2 => listSetEqB s2.hideList s.hideList) = .ok true := by
  have hcol : collectHideShas t [sha] =
      collect_subtree_shas t (t.commit_nodes.length + 1) [] sha := by
    unfold collectHideShas
    rw [List.foldl_cons, if_pos (by rw [hvis]), List.foldl_nil]
  have h1 : hide_subtrees r curTime s [rev] =
      .ok { s with
        hideList := s.hideList ++
          (collectHideShas t [sha]).filter (fun x => decide (x ∉ s.hideList)) } := by
    unfold hide_subtrees
    rw [hguard, bindE_ok, hbt, bindE_ok]
  rw [h1, ebind_ok]
  set s1 : GitState := { s with
    hideList := s.hideList ++
      (collectHideShas t [sha]).filter (fun x => decide (x ∉ s.hideList)) } with hs1
  have hsha_s1 : sha ∈ s1.hideList := by
    rw [hs1]
    show sha ∈ s.hideList ++ _
    refine List.mem_append_right _ ?_
    rw [hcol]
    refine List.mem_filter.mpr ⟨?_, by simpa using hnot⟩
    exact collect_subtree_root_mem t _ sha []
  have hres1 : resolveRef s1 rev = some sha := by
    rw [hs1, resolveRef_hideList, hres]
  have h2 : unhide_revs s1 [rev] =
      .ok { s1 with
        hideList := (dedupList s1.hideList).filter (fun x => decide (x ≠ sha)) } := by
    unfold unhide_revs
    rw [foldlME_cons]
    simp only [hres1, Option.elim, bindE_ok]
    rw [if_pos ((mem_dedupList _ _).mpr hsha_s1)]
    rfl
  rw [h2]
  show Except.ok (listSetEqB ((dedupList s1.hideList).filter
    (fun x => decide (x ≠ sha))) s.hideList) = Except.ok true
  have hseteq : listSetEqB ((dedupList s1.hideList).filter
      (fun x => decide (x ≠ sha))) s.hideList = true := by
    rw [listSetEqB_true_iff]
    constructor
    · intro x hx
      obtain ⟨hxd, hxne⟩ := List.mem_filter.mp hx
      have hxne2 : x ≠ sha := by simpa using hxne
      have hx1 : x ∈ s1.hideList := (mem_dedupList _ _).mp hxd
      rw [hs1] at hx1
      rcases List.mem_append.mp hx1 with h | h
      · exact h
      · obtain ⟨hcolm, hnm⟩ := List.mem_filter.mp h
        rw [hcol] at hcolm
        rcases hsub x hcolm with rfl | h2m
        · exact absurd rfl hxne2
        · exact h2m
    · intro x hx
      refine List.mem_filter.mpr ⟨(mem_dedupList _ _).mpr ?_, ?_⟩
      · rw [hs1]
        exact List.mem_append_left _ hx
      · simp only [decide_eq_true_eq]
        intro hxe
        subst hxe
        exact hnot hx
  rw [hseteq]

/-- Witness for C5 at `stateParentChild`: hiding then unhiding the leaf
commit `b1` restores the (empty) hide-list. -/
theorem c5_hide_unhide_inverse_witness :
    ((hide_subtrees repoO 500 stateParentChild ["b1"]).bind
          (fun s1 => unhide_revs s1 ["b1"])).map
        (fun s2 => listSetEqB s2.hideList stateParentChild.hideList) = .ok true :=
  c5_hide_unhide_inverse repoO 500 stateParentChild "b1" "b1" treeParentChild
    rfl rfl rfl (by decide) (by decide) (by decide)

theorem optionElim_ok {α : Type} (o : Option α) (e : String) (v : α) :
    o.elim (Except.error e) Except.ok = Except.ok v ↔ o = some v := by
  cases o <;> simp [Option.elim]

theorem fetchCommits_canonical (s : GitState) (shas : List String) (cs : List Commit)
    (h : fetchCommits s shas = .ok cs) :
    ∀ c ∈ cs, findCommit s c.hexsha = some c ∧ c.hexsha ∈ shas := by
  intro c hc
  obtain ⟨sha, hsha, hfc⟩ := mapME_ok_forward h c hc
  rw [optionElim_ok] at hfc
  obtain ⟨hhex, _⟩ := findCommit_hexsha s sha c hfc
  subst hhex
  exact ⟨hfc, hsha⟩

theorem fetchCommits_covers (s : GitState) (shas : List String) (cs : List Commit)
    (h : fetchCommits s shas = .ok cs) :
    ∀ sha ∈ shas, ∃ c ∈ cs, c.hexsha = sha := by
  intro sha hsha
  obtain ⟨c, hc, hfc⟩ := mapME_ok_backward h sha hsha
  rw [optionElim_ok] at hfc
  exact ⟨c, hc, (findCommit_hexsha s sha c hfc).1⟩

theorem insertSet_nodup {α : Type} [DecidableEq α] (l : List α) (x : α)
    (h : l.Nodup) : (insertSet l x).Nodup := by
  unfold insertSet
  split
  · exact h
  · rename_i hx
    simp [List.nodup_append, h, hx]

theorem get_upstream_names_nodup (message : String) :
    (get_upstream_names message).Nodup := by
  unfold get_upstream_names
  suffices h : ∀ (lines : List String) (acc : List String), acc.Nodup →
      (lines.foldl
        (fun acc line =>
          if startsWithPy line "upstream:" then
            insertSet acc (trimPy (afterFirstColon line))
          else acc) acc).Nodup by
    exact h _ [] List.nodup_nil
  intro lines
  induction lines with
  | nil => intro acc h; exact h
  | cons line lines ih =>
    intro acc h
    rw [List.foldl_cons]
    apply ih
    split
    · exact insertSet_nodup _ _ h
    · exact h

theorem mem_get_upstream_names (message name : String) :
    name ∈ get_upstream_names message ↔
      ∃ line ∈ splitPy message '\n', startsWithPy line "upstream:" = true ∧
        trimPy (afterFirstColon line) = name := by
  unfold get_upstream_names
  suffices h : ∀ (lines : List String) (acc : List String),
      name ∈ lines.foldl
          (fun acc line =>
            if startsWithPy line "upstream:" then
              insertSet acc (trimPy (afterFirstColon line))
            else acc) acc ↔
        name ∈ acc ∨ ∃ line ∈ lines, startsWithPy line "upstream:" = true ∧
          trimPy (afterFirstColon line) = name by
    rw [h _ []]
    simp
  intro lines
  induction lines with
  | nil => intro acc; simp
  | cons line lines ih =>
    intro acc
    rw [List.foldl_cons, ih]
    by_cases hsw : startsWithPy line "upstream:" = true
    · rw [if_pos hsw, mem_insertSet]
      constructor
      · rintro ((h | h) | h)
        · exact Or.inl h
        · exact Or.inr ⟨line, List.mem_cons_self _ _, hsw, h.symm⟩
        · obtain ⟨l2, hl2, h2⟩ := h
          exact Or.inr ⟨l2, List.mem_cons_of_mem _ hl2, h2⟩
      · rintro (h | ⟨l2, hl2, h2, h3⟩)
        · exact Or.inl (Or.inl h)
        · rcases List.mem_cons.mp hl2 with rfl | hl2m
          · exact Or.inl (Or.inr h3.symm)
          · exact Or.inr ⟨l2, hl2m, h2, h3⟩
    · rw [if_neg hsw]
      constructor
      · rintro (h | ⟨l2, hl2, h2, h3⟩)
        · exact Or.inl h
        · exact Or.inr ⟨l2, List.mem_cons_of_mem _ hl2, h2, h3⟩
      · rintro (h | ⟨l2, hl2, h2, h3⟩)
        · exact Or.inl h
        · rcases List.mem_cons.mp hl2 with rfl | hl2m
          · exact absurd h2 hsw
          · exact Or.inr ⟨l2, hl2m, h2, h3⟩

theorem alistGetD_alistAppendAt_self (m : List (String × List String)) (k x : String) :
    alistGetD (alistAppendAt m k x) k [] = alistGetD m k [] ++ [x] := by
  unfold alistGetD
  rw [alistGet_alistAppendAt_self]
  rfl

theorem alistGetD_alistAppendAt_ne (m : List (String × List String)) (k k2 x : String)
    (h : k2 ≠ k) : alistGetD (alistAppendAt m k x) k2 [] = alistGetD m k2 [] := by
  unfold alistGetD
  rw [alistGet_alistAppendAt_ne m k k2 x h]

theorem namesFold_getD (csha : String) :
    ∀ (names : List String), names.Nodup → ∀ (m : List (String × List String))
      (nm : String),
      alistGetD (names.foldl (fun m2 n => alistAppendAt m2 n csha) m) nm [] =
        if nm ∈ names then alistGetD m nm [] ++ [csha] else alistGetD m nm [] := by
  intro names
  induction names with
  | nil => intro _ m nm; simp
  | cons n names ih =>
    intro hnd m nm
    rw [List.foldl_cons, ih (List.Nodup.of_cons hnd)]
    by_cases he : nm = n
    · subst he
      have hnin : nm ∉ names := (List.nodup_cons.mp hnd).1
      rw [if_neg hnin, if_pos (List.mem_cons_self _ _)]
      exact alistGetD_alistAppendAt_self m nm csha
    · rw [alistGetD_alistAppendAt_ne m n nm csha he]
      by_cases hin : nm ∈ names
      · rw [if_pos hin, if_pos (List.mem_cons_of_mem _ hin)]
      · rw [if_neg hin, if_neg (by simp [he, hin])]

theorem visitTrunkCommits_char (s : GitState) :
    ∀ (cs : List Commit) (acc : MergeAcc),
      (∀ c ∈ cs, findCommit s c.hexsha = some c) →
      (∀ nm, (alistGetD acc.map nm []).Nodup) →
      (∀ nm sha, sha ∈ alistGetD acc.map nm [] → sha ∈ acc.visited) →
      (∀ sha, sha ∈ (visitTrunkCommits acc cs).visited ↔
          sha ∈ acc.visited ∨ ∃ c ∈ cs, c.hexsha = sha) ∧
        (∀ nm sha, sha ∈ alistGetD (visitTrunkCommits acc cs).map nm [] ↔
          sha ∈ alistGetD acc.map nm [] ∨
            ∃ c ∈ cs, c.hexsha = sha ∧ sha ∉ acc.visited ∧
              nm ∈ get_upstream_names c.message) ∧
        (∀ nm, (alistGetD (visitTrunkCommits acc cs).map nm []).Nodup) ∧
        (∀ nm sha, sha ∈ alistGetD (visitTrunkCommits acc cs).map nm [] →
          sha ∈ (visitTrunkCommits acc cs).visited) := by
  intro cs
  induction cs with
  | nil =>
    intro acc _hcan hnd hinv
    unfold visitTrunkCommits
    exact ⟨by simp, by simp, hnd, hinv⟩
  | cons c cs ih =>
    intro acc hcan hnd hinv
    unfold visitTrunkCommits
    split
    · rename_i hvisited
      obtain ⟨ihv, ihm, ihnd, ihinv⟩ :=
        ih acc (fun d hd => hcan d (List.mem_cons_of_mem _ hd)) hnd hinv
      refine ⟨?_, ?_, ihnd, ihinv⟩
      · intro sha
        rw [ihv]
        constructor
        · rintro (h | ⟨d, hd, rfl⟩)
          · exact Or.inl h
          · exact Or.inr ⟨d, List.mem_cons_of_mem _ hd, rfl⟩
        · rintro (h | ⟨d, hd, rfl⟩)
          · exact Or.inl h
          · rcases List.mem_cons.mp hd with rfl | hd2
            · exact Or.inl hvisited
            · exact Or.inr ⟨d, hd2, rfl⟩
      · intro nm sha
        rw [ihm]
        constructor
        · rintro (h | ⟨d, hd, rfl, hnv, hname⟩)
          · exact Or.inl h
          · exact Or.inr ⟨d, List.mem_cons_of_mem _ hd, rfl, hnv, hname⟩
        · rintro (h | ⟨d, hd, rfl, hnv, hname⟩)
          · exact Or.inl h
          · rcases List.mem_cons.mp hd with rfl | hd2
            · exact absurd hvisited hnv
            · exact Or.inr ⟨d, hd2, rfl, hnv, hname⟩
    · rename_i hnew
      have hcanc : findCommit s c.hexsha = some c := hcan c (List.mem_cons_self _ _)
      have hgetD : ∀ nm,
          alistGetD ((get_upstream_names c.message).foldl
            (fun m n => alistAppendAt m n c.hexsha) acc.map) nm [] =
          if nm ∈ get_upstream_names c.message then
            alistGetD acc.map nm [] ++ [c.hexsha]
          else alistGetD acc.map nm [] :=
        fun nm => namesFold_getD c.hexsha (get_upstream_names c.message)
          (get_upstream_names_nodup _) acc.map nm
      have hnd2 : ∀ nm,
          (alistGetD ((get_upstream_names c.message).foldl
            (fun m n => alistAppendAt m n c.hexsha) acc.map) nm []).Nodup := by
        intro nm
        rw [hgetD]
        split
        · have hnotin : c.hexsha ∉ alistGetD acc.map nm [] := by
            intro h
            exact hnew (hinv nm c.hexsha h)
          simp [List.nodup_append, hnd nm, hnotin]
        · exact hnd nm
      have hinv2 : ∀ nm sha,
          sha ∈ alistGetD ((get_upstream_names c.message).foldl
            (fun m n => alistAppendAt m n c.hexsha) acc.map) nm [] →
          sha ∈ acc.visited ++ [c.hexsha] := by
        intro nm sha h
        rw [hgetD] at h
        split at h
        · rcases List.mem_append.mp h with h | h
          · exact List.mem_append_left _ (hinv nm sha h)
          · exact List.mem_append_right _ h
        · exact List.mem_append_left _ (hinv nm sha h)
      obtain ⟨ihv, ihm, ihnd, ihinv⟩ :=
        ih ⟨acc.visited ++ [c.hexsha],
            (get_upstream_names c.message).foldl
              (fun m n => alistAppendAt m n c.hexsha) acc.map⟩
          (fun d hd => hcan d (List.mem_cons_of_mem _ hd)) hnd2 hinv2
      refine ⟨?_, ?_, ihnd, ihinv⟩
      · intro sha
        rw [ihv]
        show sha ∈ acc.visited ++ [c.hexsha] ∨ _ ↔ _
        rw [List.mem_append, List.mem_singleton]
        constructor
        · rintro ((h | rfl) | ⟨d, hd, rfl⟩)
          · exact Or.inl h
          · exact Or.inr ⟨c, List.mem_cons_self _ _, rfl⟩
          · exact Or.inr ⟨d, List.mem_cons_of_mem _ hd, rfl⟩
        · rintro (h | ⟨d, hd, rfl⟩)
          · exact Or.inl (Or.inl h)
          · rcases List.mem_cons.mp hd with rfl | hd2
            · exact Or.inl (Or.inr rfl)
            · exact Or.inr ⟨d, hd2, rfl⟩
      · intro nm sha
        rw [ihm]
        show sha ∈ alistGetD ((get_upstream_names c.message).foldl
            (fun m n => alistAppendAt m n c.hexsha) acc.map) nm [] ∨ _ ↔ _
        rw [hgetD]
        constructor
        · rintro (h | ⟨d, hd, rfl, hnv, hname⟩)
          · split at h
            · rcases List.mem_append.mp h with h | h
              · exact Or.inl h
              · rw [List.mem_singleton] at h
                subst h
                rename_i hnmmem
                exact Or.inr ⟨c, List.mem_cons_self _ _, rfl, hnew, hnmmem⟩
            · exact Or.inl h
          · refine Or.inr ⟨d, List.mem_cons_of_mem _ hd, rfl, ?_, hname⟩
            intro hx
            exact hnv (List.mem_append_left _ hx)
        · rintro (h | ⟨d, hd, rfl, hnv, hname⟩)
          · left
            split
            · exact List.mem_append_left _ h
            · exact h
          · rcases List.mem_cons.mp hd with rfl | hd2
            · left
              rw [if_pos hname]
              exact List.mem_append_right _ (List.mem_singleton.mpr rfl)
            · by_cases hce : d.hexsha = c.hexsha
              · have hdc : d = c := by
                  have h1 := hcan d (List.mem_cons_of_mem _ hd2)
                  rw [hce, hcanc] at h1
                  exact (Option.some.inj h1).symm
                subst hdc
                left
                rw [if_pos hname]
                exact List.mem_append_right _ (List.mem_singleton.mpr rfl)
              · refine Or.inr ⟨d, hd2, rfl, ?_, hname⟩
                intro hx
                rcases List.mem_append.mp hx with hx | hx
                · exact hnv hx
                · exact hce (List.mem_singleton.mp hx)

theorem mergeFold_char (s : GitState) (tp : String) :
    ∀ (tss : List String) (acc out : MergeAcc),
      (∀ nm, (alistGetD acc.map nm []).Nodup) →
      (∀ nm sha, sha ∈ alistGetD acc.map nm [] → sha ∈ acc.visited) →
      foldlME
        (fun (acc2 : MergeAcc) (ts : String) => do
          let cs ← fetchCommits s (rangeShas s tp ts)
          Except.ok (visitTrunkCommits acc2 cs))
        acc tss = .ok out →
      (∀ sha, sha ∈ out.visited ↔
          sha ∈ acc.visited ∨ ∃ ts ∈ tss, sha ∈ rangeShas s tp ts) ∧
        (∀ nm sha, sha ∈ alistGetD out.map nm [] ↔
          sha ∈ alistGetD acc.map nm [] ∨
            ((∃ ts ∈ tss, sha ∈ rangeShas s tp ts) ∧ sha ∉ acc.visited ∧
              ∃ c, findCommit s sha = some c ∧ nm ∈ get_upstream_names c.message)) ∧
        (∀ nm, (alistGetD out.map nm []).Nodup) := by
  intro tss
  induction tss with
  | nil =>
    intro acc out hnd hinv hfold
    rw [foldlME_nil] at hfold
    cases hfold
    exact ⟨by simp, by simp, hnd⟩
  | cons ts tss ih =>
    intro acc out hnd hinv hfold
    rw [foldlME_cons] at hfold
    cases hfc : fetchCommits s (rangeShas s tp ts) with
    | error e =>
      rw [show (do
          let cs ← fetchCommits s (rangeShas s tp ts)
          Except.ok (visitTrunkCommits acc cs) : Except String MergeAcc) =
        Except.error e by rw [show (do
          let cs ← fetchCommits s (rangeShas s tp ts)
          Except.ok (visitTrunkCommits acc cs) : Except String MergeAcc) =
            Bind.bind (fetchCommits s (rangeShas s tp ts))
              (fun cs => Except.ok (visitTrunkCommits acc cs)) from rfl, hfc, bindE_err]]
        at hfold
      rw [ebind_err] at hfold
      cases hfold
    | ok cs =>
      rw [show (do
          let cs ← fetchCommits s (rangeShas s tp ts)
          Except.ok (visitTrunkCommits acc cs) : Except String MergeAcc) =
        Except.ok (visitTrunkCommits acc cs) by rw [show (do
          let cs ← fetchCommits s (rangeShas s tp ts)
          Except.ok (visitTrunkCommits acc cs) : Except String MergeAcc) =
            Bind.bind (fetchCommits s (rangeShas s tp ts))
              (fun cs => Except.ok (visitTrunkCommits acc cs)) from rfl, hfc, bindE_ok]]
        at hfold
      rw [ebind_ok] at hfold
      have hcan := fetchCommits_canonical s _ cs hfc
      obtain ⟨chv, chm, chnd, chinv⟩ :=
        visitTrunkCommits_char s cs acc (fun c hc => (hcan c hc).1) hnd hinv
      obtain ⟨ihv, ihm, ihnd⟩ := ih (visitTrunkCommits acc cs) out chnd chinv hfold
      have hcseq : ∀ sha, (∃ c ∈ cs, c.hexsha = sha) ↔ sha ∈ rangeShas s tp ts := by
        intro sha
        constructor
        · rintro ⟨c, hc, rfl⟩
          exact (hcan c hc).2
        · intro h
          exact fetchCommits_covers s _ cs hfc sha h
      refine ⟨?_, ?_, ihnd⟩
      · intro sha
        rw [ihv, chv, hcseq]
        constructor
        · rintro ((h | h) | ⟨ts2, hts2, h⟩)
          · exact Or.inl h
          · exact Or.inr ⟨ts, List.mem_cons_self _ _, h⟩
          · exact Or.inr ⟨ts2, List.mem_cons_of_mem _ hts2, h⟩
        · rintro (h | ⟨ts2, hts2, h⟩)
          · exact Or.inl (Or.inl h)
          · rcases List.mem_cons.mp hts2 with rfl | hts3
            · exact Or.inl (Or.inr h)
            · exact Or.inr ⟨ts2, hts3, h⟩
      · intro nm sha
        rw [ihm, chm]
        have hcc : (∃ c ∈ cs, c.hexsha = sha ∧ sha ∉ acc.visited ∧
            nm ∈ get_upstream_names c.message) ↔
            (sha ∈ rangeShas s tp ts ∧ sha ∉ acc.visited ∧
              ∃ c, findCommit s sha = some c ∧ nm ∈ get_upstream_names c.message) := by
          constructor
          · rintro ⟨c, hc, rfl, hnv, hname⟩
            exact ⟨(hcan c hc).2, hnv, c, (hcan c hc).1, hname⟩
          · rintro ⟨hrng, hnv, c0, hfc0, hname⟩
            obtain ⟨c, hc, hce⟩ := fetchCommits_covers s _ cs hfc sha hrng
            have : c = c0 := by
              have h1 := (hcan c hc).1
              rw [hce, hfc0] at h1
              exact (Option.some.inj h1).symm
            subst this
            exact ⟨c, hc, hce, hnv, hname⟩
        rw [hcc]
        constructor
        · rintro ((h | h) | ⟨⟨ts2, hts2, hrng⟩, hnv, hcx⟩)
          · exact Or.inl h
          · exact Or.inr ⟨⟨ts, List.mem_cons_self _ _, h.1⟩, h.2.1, h.2.2⟩
          · refine Or.inr ⟨⟨ts2, List.mem_cons_of_mem _ hts2, hrng⟩, ?_, hcx⟩
            intro hx
            exact hnv ((chv sha).mpr (Or.inl hx))
        · rintro (h | ⟨⟨ts2, hts2, hrng⟩, hnv, hcx⟩)
          · exact Or.inl (Or.inl h)
          · rcases List.mem_cons.mp hts2 with rfl | hts3
            · exact Or.inl (Or.inr ⟨hrng, hnv, hcx⟩)
            · by_cases hv1 : sha ∈ (visitTrunkCommits acc cs).visited
              · rcases (chv sha).mp hv1 with hv2 | hv2
                · exact absurd hv2 hnv
                · rw [hcseq] at hv2
                  exact Or.inl (Or.inr ⟨hv2, hnv, hcx⟩)
              · exact Or.inr ⟨⟨ts2, hts3, hrng⟩, hv1, hcx⟩

/-- C6: `collect_merged_upstreams` walks the trunk commits strictly between
the oldest trunk commit's first parent and each configured trunk tip,
visits each trunk commit at most once across all trunk references
(deduplicating by sha), and returns a map associating each upstream name
with exactly the shas of visited trunk commits whose message contains a
line starting with `upstream:` whose remainder after the first colon,
trimmed, equals that name. -/
theorem c6_collect_merged_upstreams (r : HeadyRepo) (s : GitState) (oldest : Commit)
    (tp : String) (prest : List String) (hpar : oldest.parents = tp :: prest)
    (m : List (String × List String))
    (hok : collect_merged_upstreams r s oldest = .ok m) :
    (∀ name sha, sha ∈ alistGetD m name [] ↔
        ((∃ tref ∈ r.trunk_refs, ∃ ts, resolveRef s tref = some ts ∧
            sha ∈ rangeShas s tp ts) ∧
          ∃ c, findCommit s sha = some c ∧ name ∈ get_upstream_names c.message)) ∧
      (∀ name, (alistGetD m name []).Nodup) ∧
      ∀ name msg, name ∈ get_upstream_names msg ↔
        ∃ line ∈ splitPy msg '\n', startsWithPy line "upstream:" = true ∧
          trimPy (afterFirstColon line) = name := by
  unfold collect_merged_upstreams at hok
  rw [hpar] at hok
  simp only [] at hok
  cases hts : trunkShasOf r s with
  | error e => rw [hts, bindE_err] at hok; cases hok
  | ok tss =>
    rw [hts, bindE_ok] at hok
    cases hfold : foldlME
        (fun (acc2 : MergeAcc) (ts : String) => do
          let cs ← fetchCommits s (rangeShas s tp ts)
          Except.ok (visitTrunkCommits acc2 cs))
        ⟨[], []⟩ tss with
    | error e => rw [hfold, bindE_err] at hok; cases hok
    | ok accF =>
      rw [hfold, bindE_ok] at hok
      have hm : m = accF.map := (Except.ok.inj hok).symm
      subst hm
      obtain ⟨_chv, chm, chnd⟩ := mergeFold_char s tp tss ⟨[], []⟩ accF
        (fun nm => by show ([] : List String).Nodup; exact List.nodup_nil)
        (fun nm sha h => by simp [alistGetD, alistGet] at h) hfold
      have htss : ∀ ts, ts ∈ tss ↔
          ∃ tref ∈ r.trunk_refs, resolveRef s tref = some ts := by
        intro ts
        constructor
        · intro h
          obtain ⟨tref, htref, helim⟩ := mapME_ok_forward hts ts h
          rw [optionElim_ok] at helim
          exact ⟨tref, htref, helim⟩
        · rintro ⟨tref, htref, hres⟩
          obtain ⟨ts2, hts2, helim⟩ := mapME_ok_backward hts tref htref
          rw [optionElim_ok] at helim
          rw [hres] at helim
          cases helim
          exact hts2
      refine ⟨?_, chnd, fun name msg => mem_get_upstream_names msg name⟩
      intro name sha
      rw [chm]
      constructor
      · rintro (h | ⟨⟨ts, htsm, hrng⟩, _hnv, hcx⟩)
        · simp [alistGetD, alistGet] at h
        · obtain ⟨tref, htref, hres⟩ := (htss ts).mp htsm
          exact ⟨⟨tref, htref, ts, hres, hrng⟩, hcx⟩
      · rintro ⟨⟨tref, htref, ts, hres, hrng⟩, hcx⟩
        refine Or.inr ⟨⟨ts, (htss ts).mpr ⟨tref, htref, hres⟩, hrng⟩, ?_, hcx⟩
        simp

/-- Witness for C6 on `stateMerged`: the trunk commit `t1` carrying the
`origin/feat` trailer appears in the merged map under that name. -/
theorem c6_collect_merged_upstreams_witness :
    "t1" ∈ alistGetD mergedMapVal "origin/feat" [] :=
  ((c6_collect_merged_upstreams repoO stateMerged trunkCommitMerged "t0" [] rfl
      mergedMapVal rfl).1 "origin/feat" "t1").mpr
    ⟨⟨"origin/main", by decide, "t1", rfl, by decide⟩,
      ⟨trunkCommitMerged, rfl, by decide⟩⟩


theorem buildCommitNodes_sub (r : HeadyRepo) (s : GitState)
    (hide am mv : List String) (sb : List (String × List String)) :
    ∀ (bcs : List Commit) (vu : List (String × List String))
      (cns : List (String × CommitNode)), ∀ p ∈ cns,
      p ∈ (bcs.foldl
        (fun acc bc =>
          let res := make_node r s hide am mv sb acc.1 bc false
          (res.1, acc.2 ++ [(bc.hexsha, res.2)]))
        (vu, cns)).2 := by
  intro bcs
  induction bcs with
  | nil => intro vu cns p hp; exact hp
  | cons bc bcs ih =>
    intro vu cns p hp
    rw [List.foldl_cons]
    exact ih _ _ p (List.mem_append.mpr (Or.inl hp))

theorem buildCommitNodes_covers (r : HeadyRepo) (s : GitState)
    (hide am mv : List String) (sb : List (String × List String)) :
    ∀ (bcs : List Commit) (vu : List (String × List String))
      (cns : List (String × CommitNode)), ∀ bc ∈ bcs, ∃ nd,
      (bc.hexsha, nd) ∈ (bcs.foldl
        (fun acc bc =>
          let res := make_node r s hide am mv sb acc.1 bc false
          (res.1, acc.2 ++ [(bc.hexsha, res.2)]))
        (vu, cns)).2 := by
  intro bcs
  induction bcs with
  | nil => intro vu cns bc hbc; cases hbc
  | cons d bcs ih =>
    intro vu cns bc hbc
    rw [List.foldl_cons]
    rcases List.mem_cons.mp hbc with rfl | hbc2
    · refine ⟨(make_node r s hide am mv sb vu bc false).2, ?_⟩
      exact buildCommitNodes_sub r s hide am mv sb bcs _ _ _
        (List.mem_append.mpr (Or.inr (List.mem_singleton.mpr rfl)))
    · exact ih _ _ bc hbc2

/-- Every entry of the commit-node stage is keyed by its canonical commit's
sha and that sha lies in the branch commit set. -/
theorem cnOf_entries (r : HeadyRepo) (curTime : Int) (s : GitState)
    (trunkShas : List String) (branchCommits : List Commit)
    (hfetch : fetchCommits s (branchShasOf curTime s trunkShas) = .ok branchCommits) :
    ∀ p ∈ (cnOf r curTime s trunkShas branchCommits).2,
      p.2.commit.hexsha = p.1 ∧ findCommit s p.1 = some p.2.commit ∧
        p.1 ∈ branchShasOf curTime s trunkShas := by
  unfold cnOf
  refine buildCommitNodes_inv_apply r s s.hideList (scanOf curTime s).amendedShas
    (scanOf curTime s).movedShas (specialBranchesOf r s trunkShas)
    (fun q => q.2.commit.hexsha = q.1 ∧ findCommit s q.1 = some q.2.commit ∧
      q.1 ∈ branchShasOf curTime s trunkShas)
    branchCommits ?_
  intro visUp bc hbc
  obtain ⟨hfind, hmem⟩ := fetchCommits_canonical s _ _ hfetch bc hbc
  exact ⟨rfl, hfind, hmem⟩

/-- Every branch commit sha contributes an entry to the commit-node stage. -/
theorem cnOf_covers (r : HeadyRepo) (curTime : Int) (s : GitState)
    (trunkShas : List String) (branchCommits : List Commit)
    (hfetch : fetchCommits s (branchShasOf curTime s trunkShas) = .ok branchCommits)
    (sha : String) (hsha : sha ∈ branchShasOf curTime s trunkShas) :
    ∃ nd, (sha, nd) ∈ (cnOf r curTime s trunkShas branchCommits).2 := by
  obtain ⟨c, hc, hcx⟩ := fetchCommits_covers s _ _ hfetch sha hsha
  subst hcx
  unfold cnOf buildCommitNodes
  exact buildCommitNodes_covers r s s.hideList (scanOf curTime s).amendedShas
    (scanOf curTime s).movedShas (specialBranchesOf r s trunkShas)
    branchCommits [] [] c hc

/-- C3: Trunk exclusion invariant: on a well-formed state, in every tree
returned by `build_tree`, no sha keyed in `commit_nodes` is an ancestor of
any resolved configured trunk ref, and every node stored in `trunk_nodes`
is an ancestor of at least one resolved configured trunk ref. -/
theorem c3_trunk_exclusion (r : HeadyRepo) (curTime : Int) (s : GitState)
    (hwf : WellFormed s = true) (t : HeadyTree)
    (hbt : build_tree r curTime s = .ok t) :
    (∀ sha, t.commit_nodes.any (fun p => p.1 = sha) = true →
      ∀ tref ∈ r.trunk_refs, ∀ ts, resolveRef s tref = some ts →
        isAncestorSha s sha ts = false) ∧
    ∀ node ∈ t.trunk_nodes, ∃ tref ∈ r.trunk_refs, ∃ ts,
      resolveRef s tref = some ts ∧ isAncestorSha s node.commit.hexsha ts = true := by
  obtain ⟨trunkShas, branchCommits, trunkCommits, linked, oldest, merged,
    h1, h2, h3, h4, h5, h6, ht⟩ := build_tree_ok_elim r curTime s t hbt
  have hts_mem : ∀ tref ∈ r.trunk_refs, ∀ ts, resolveRef s tref = some ts →
      ts ∈ trunkShas := by
    intro tref htref ts hres
    obtain ⟨y, hy, helim⟩ := mapME_ok_backward h1 tref htref
    rw [optionElim_ok] at helim
    rw [hres] at helim
    cases helim
    exact hy
  constructor
  · intro sha hany tref htref ts hres
    rw [ht] at hany
    rw [List.any_eq_true] at hany
    obtain ⟨x, hx, hxsha⟩ := hany
    have hxs : x.1 = sha := by simpa using hxsha
    have hx2 : x ∈ (cnOf r curTime s trunkShas branchCommits).2.map
        (fun p => (p.1, annotateMerged merged p.2)) := hx
    rw [List.mem_map] at hx2
    obtain ⟨q, hq, hqx⟩ := hx2
    have hqs : q.1 = sha := by
      have h := congrArg Prod.fst hqx
      simp at h
      rw [h]
      exact hxs
    have hbranch := (cnOf_entries r curTime s trunkShas branchCommits h2 q hq).2.2
    rw [hqs] at hbranch
    unfold branchShasOf revListSet at hbranch
    rw [List.mem_filter] at hbranch
    obtain ⟨-, hnot⟩ := hbranch
    have hnmem : sha ∉ reachS s trunkShas := of_decide_eq_true hnot
    apply Bool.eq_false_iff.mpr
    intro hia
    unfold isAncestorSha at hia
    rw [List.all_eq_true] at hia
    have hself : sha ∈ reachS s [sha] :=
      reachAux_acc_mem _ _ _ (List.mem_singleton.mpr rfl)
    have hx1 := of_decide_eq_true (hia sha hself)
    have hts : ts ∈ trunkShas := hts_mem tref htref ts hres
    exact hnmem (reachAux_mono s.commits [ts] trunkShas
      (fun y hy => by rw [List.mem_singleton.mp hy]; exact hts) sha hx1)
  · intro node hnode
    have htn : ∀ p ∈ (tnOf r curTime s trunkShas branchCommits trunkCommits).2,
        p.2.commit.hexsha = p.1 ∧ p.1 ∈ reachS s trunkShas := by
      unfold tnOf
      refine buildTrunkNodes_inv_apply r s s.hideList (scanOf curTime s).amendedShas
        (scanOf curTime s).movedShas (specialBranchesOf r s trunkShas)
        (fun q => q.2.commit.hexsha = q.1 ∧ q.1 ∈ reachS s trunkShas)
        trunkCommits ?_ _
      intro visUp tc htc
      obtain ⟨-, hmem⟩ := fetchCommits_canonical s trunkShas trunkCommits h3 tc htc
      exact ⟨rfl, reachAux_acc_mem _ _ _ hmem⟩
    have hkeep : ∀ (visUp : List (String × List String)) (sha : String)
        (node2 : CommitNode) (parentSha : String) (parentCommit : Commit)
        (rest2 : List String),
        (sha, node2) ∈ (cnOf r curTime s trunkShas branchCommits).2 →
        node2.commit.parents = parentSha :: rest2 →
        (cnOf r curTime s trunkShas branchCommits).2.any
          (fun p => p.1 = parentSha) = false →
        findCommit s parentSha = some parentCommit →
        (make_node r s s.hideList (scanOf curTime s).amendedShas
            (scanOf curTime s).movedShas (specialBranchesOf r s trunkShas)
            visUp parentCommit true).2.commit.hexsha = parentSha ∧
          parentSha ∈ reachS s trunkShas := by
      intro visUp sha node2 parentSha parentCommit rest2 hmemcn hpar hany hfc
      obtain ⟨hpx, hpcs⟩ := findCommit_hexsha s parentSha parentCommit hfc
      refine ⟨hpx, ?_⟩
      obtain ⟨hhex, hfind, hbr⟩ :=
        cnOf_entries r curTime s trunkShas branchCommits h2 _ hmemcn
      have hkept : sha ∈ reachS s (keptTipsOf curTime s trunkShas) := by
        have hb := hbr
        unfold branchShasOf revListSet at hb
        exact List.mem_of_mem_filter hb
      have hcm : node2.commit ∈ s.commits := (findCommit_hexsha s sha node2.commit hfind).2
      have hclose := reachAux_closure s.commits hwf (keptTipsOf curTime s trunkShas)
        node2.commit hcm (by rw [hhex]; exact hkept) parentSha
        (by rw [hpar]; exact List.mem_cons_self _ _)
      have hnb : parentSha ∉ branchShasOf curTime s trunkShas := by
        intro hmem
        obtain ⟨nd, hnd⟩ := cnOf_covers r curTime s trunkShas branchCommits h2 parentSha hmem
        have htrue : (cnOf r curTime s trunkShas branchCommits).2.any
            (fun p => p.1 = parentSha) = true := by
          rw [List.any_eq_true]
          exact ⟨(parentSha, nd), hnd, by simp⟩
        rw [hany] at htrue
        cases htrue
      unfold branchShasOf revListSet at hnb
      rw [List.mem_filter] at hnb
      by_contra hnm
      exact hnb ⟨hclose, decide_eq_true hnm⟩
    have hinv : ∀ p ∈ linked.2.1, p.2.commit.hexsha = p.1 ∧ p.1 ∈ reachS s trunkShas :=
      linkNodes_trunk_inv r s s.hideList (scanOf curTime s).amendedShas
        (scanOf curTime s).movedShas (specialBranchesOf r s trunkShas)
        (cnOf r curTime s trunkShas branchCommits).2
        (fun q => q.2.commit.hexsha = q.1 ∧ q.1 ∈ reachS s trunkShas)
        hkeep
        (cnOf r curTime s trunkShas branchCommits).2
        (tnOf r curTime s trunkShas branchCommits trunkCommits).1
        (tnOf r curTime s trunkShas branchCommits trunkCommits).2
        [] linked (fun q hq => hq) h4 htn
    have hnode2 : node ∈ sortDesc (linked.2.1.map (fun p => p.2)) := by
      rw [ht] at hnode
      exact hnode
    rw [mem_sortDesc, List.mem_map] at hnode2
    obtain ⟨q, hq, hqnode⟩ := hnode2
    have hq2 : q.2 = node := hqnode
    obtain ⟨hhex, hreachT⟩ := hinv q hq
    obtain ⟨ts, hts, hre⟩ := reach_sound s hwf trunkShas q.1 hreachT
    obtain ⟨tref, htref, helim⟩ := mapME_ok_forward h1 ts hts
    rw [optionElim_ok] at helim
    refine ⟨tref, htref, ts, helim, ?_⟩
    have hnodesha : node.commit.hexsha = q.1 := by rw [← hq2]; exact hhex
    rw [hnodesha]
    unfold isAncestorSha
    rw [List.all_eq_true]
    intro x hx
    apply decide_eq_true
    obtain ⟨rr, hrr, hrx⟩ := reach_sound s hwf [q.1] x hx
    rw [List.mem_singleton] at hrr
    subst hrr
    exact reach_complete s hwf [ts] ts (List.mem_singleton.mpr rfl) x
      (Relation.ReflTransGen.trans hre hrx)

/-- Witness for C3 on `stateA`: the stacked commit `a0` is keyed in
`commit_nodes` of the tree built there and is not an ancestor of the
resolved trunk ref `t0`. -/
theorem c3_trunk_exclusion_witness : isAncestorSha stateA "a0" "t0" = false :=
  (c3_trunk_exclusion repoO 400 stateA (by decide) treeA rfl).1 "a0" (by decide)
    "origin/main" (by decide) "t0" rfl


/-- C1: End-to-end scenario: with trunk at `t0`, exactly one non-trunk local
commit `a0` (first parent `t0`) carrying the trailer `upstream: origin/feat`,
and no remote ref `origin/feat`, `build_tree` returns a tree with exactly one
trunk node (for `t0`) having exactly one child (`a0`), whose node carries the
single upstream `(origin/feat, none, none)`, empty `merged_upstream_shas`,
and `is_hidden = false`; the commit timestamps are arbitrary and the reflog
entry lies within the 14-day recency window. -/
theorem c1_end_to_end (tP tT tA tR curTime : Int)
    (hage : curTime - tR ≤ maxAgeSeconds) :
    build_tree repoO curTime (c1State tP tT tA tR) = .ok (c1Tree tP tT tA) ∧
    (c1Tree tP tT tA).trunk_nodes = [c1NodeT tT] ∧
    alistGetD (c1Tree tP tT tA).children "t0" [] = ["a0"] ∧
    (c1Tree tP tT tA).commit_nodes = [("a0", c1NodeA tA)] ∧
    (c1NodeA tA).upstreams = [⟨"origin/feat", none, none⟩] ∧
    (c1NodeA tA).merged_upstream_shas = [] ∧
    (c1NodeA tA).is_hidden = false := by
  have hscan : scanOf curTime (c1State tP tT tA tR) = ⟨[], [], [], [], ["a0"]⟩ := by
    show (if curTime - tR > maxAgeSeconds
        then scanStepMove ⟨"t0", "a0", "commit: Add feature", tR⟩
          (scanStepAmend ⟨"t0", "a0", "commit: Add feature", tR⟩ initScan)
        else scanReflog [] curTime []
          (scanStepTip [] ⟨"t0", "a0", "commit: Add feature", tR⟩
            (scanStepMove ⟨"t0", "a0", "commit: Add feature", tR⟩
              (scanStepAmend ⟨"t0", "a0", "commit: Add feature", tR⟩ initScan)))) =
      ScanState.mk [] [] [] [] ["a0"]
    rw [if_neg (not_lt.mpr hage)]
    rfl
  have h1e : trunkShasOf repoO (c1State tP tT tA tR) = .ok ["t0"] := rfl
  have hbs : branchShasOf curTime (c1State tP tT tA tR) ["t0"] = ["a0"] := by
    unfold branchShasOf keptTipsOf allTips
    rw [hscan]
    rfl
  have h2e : fetchCommits (c1State tP tT tA tR) ["a0"] =
      .ok [⟨"a0", ["t0"], "Add feature\n\nupstream: origin/feat\n", tA⟩] := rfl
  have h3e : fetchCommits (c1State tP tT tA tR) ["t0"] =
      .ok [⟨"t0", ["p0"], "Trunk commit", tT⟩] := rfl
  have hcn : cnOf repoO curTime (c1State tP tT tA tR) ["t0"]
      [⟨"a0", ["t0"], "Add feature\n\nupstream: origin/feat\n", tA⟩] =
      ([("origin/feat", ["a0"])], [("a0", c1NodeA tA)]) := by
    unfold cnOf
    rw [hscan]
    rfl
  have htn : tnOf repoO curTime (c1State tP tT tA tR) ["t0"]
      [⟨"a0", ["t0"], "Add feature\n\nupstream: origin/feat\n", tA⟩]
      [⟨"t0", ["p0"], "Trunk commit", tT⟩] =
      ([("origin/feat", ["a0"])], [("t0", c1NodeT tT)]) := by
    unfold tnOf
    rw [hscan, hcn]
    rfl
  have hlink : linkedOf repoO curTime (c1State tP tT tA tR) ["t0"]
      [⟨"a0", ["t0"], "Add feature\n\nupstream: origin/feat\n", tA⟩]
      [⟨"t0", ["p0"], "Trunk commit", tT⟩] =
      .ok ([("origin/feat", ["a0"])], [("t0", c1NodeT tT)], [("t0", ["a0"])]) := by
    unfold linkedOf
    rw [hscan, hcn, htn]
    rfl
  refine ⟨?_, rfl, rfl, rfl, rfl, rfl, rfl⟩
  simp only [build_tree, h1e, hbs, h2e, h3e, hlink, hcn, hscan, ebind_ok]
  rfl

/-- Witness for C1 at concrete timestamps inside the recency window. -/
theorem c1_end_to_end_witness :
    build_tree repoO 400 (c1State 100 200 300 300) = .ok (c1Tree 100 200 300) :=
  (c1_end_to_end 100 200 300 300 400 (by decide)).1

end Heady
